import Mathlib

/-!
Verification of the pyEDHREC-2.0 collection utilities.

The development shallowly embeds the Python sources
(`complete_deck.py`, `find_best_commanders.py`, `add_collection_tags.py`)
into Lean: pure string and list manipulation becomes Lean functions over
`List Char` / `List` assoc-lists, JSON payloads become a tagged tree type,
Python numbers become `ℚ`, and Python exceptions become `Except Unit`
results.  Network access is abstracted as function parameters that deliver
the already-parsed payloads.  Presentation-only fields (Scryfall links,
spreadsheet columns) that no claim mentions are omitted from the records,
as noted at each definition.
-/

namespace PyEdhrec

/-! ## Character-level models of the Python `str` methods used -/

/-- Model of Python `str.lower` on a single character, restricted to the
ASCII range (the only range the data in this program exercises). -/
def lowerChar (c : Char) : Char :=
  if 65 ≤ c.toNat ∧ c.toNat ≤ 90 then Char.ofNat (c.toNat + 32) else c

/-- Model of Python `str.upper` on a single character (ASCII range). -/
def upperChar (c : Char) : Char :=
  if 97 ≤ c.toNat ∧ c.toNat ≤ 122 then Char.ofNat (c.toNat - 32) else c

/-- Model of Python `str.lower`. -/
def pyLower (s : String) : String := ⟨s.data.map lowerChar⟩

/-- Model of Python `str.upper`. -/
def pyUpper (s : String) : String := ⟨s.data.map upperChar⟩

/-- Model of Python `str.replace(pat, "")` for a one-character pattern. -/
def removeChar (c : Char) (s : List Char) : List Char :=
  s.filter (fun d => d ≠ c)

/-- Model of Python `str.replace(a, b)` for one-character `a`, `b`. -/
def mapChar (a b : Char) (s : List Char) : List Char :=
  s.map (fun d => if d = a then b else d)

/-- Model of Python `str.split()` (no separator argument): splits on runs
of whitespace, discarding empty fields.  Accumulator-style so that it is
structurally recursive and evaluates by `rfl`/`decide`. -/
def pySplitWSAux : List Char → List Char → List (List Char)
  | [], acc => if acc.isEmpty then [] else [acc.reverse]
  | c :: rest, acc =>
    if c.isWhitespace then
      if acc.isEmpty then pySplitWSAux rest [] else acc.reverse :: pySplitWSAux rest []
    else pySplitWSAux rest (c :: acc)

/-- Model of Python `str.split()` over a character list. -/
def pySplitWS (s : List Char) : List (List Char) := pySplitWSAux s []

/-- Model of Python `"_".join(words)`. -/
def joinUnderscore : List (List Char) → List Char
  | [] => []
  | [w] => w
  | w :: w2 :: ws => w ++ '_' :: joinUnderscore (w2 :: ws)

/-! ## Collection / commander tag sanitization
(`add_collection_tags.sanitize_collection_name`, lines 45–55, and
`find_best_commanders.sanitize_commander_name`, lines 911–921). -/

/-- Embedding of `add_collection_tags.sanitize_collection_name`:
remove `,`, `'`, `:`; replace `/` and `-` by `_`; then
`"_".join(collection.split())`. -/
def sanitize_collection_name (s : String) : String :=
  let cs := s.data
  let cs := removeChar ',' cs
  let cs := removeChar '\'' cs
  let cs := removeChar ':' cs
  let cs := mapChar '/' '_' cs
  let cs := mapChar '-' '_' cs
  ⟨joinUnderscore (pySplitWS cs)⟩

/-- Embedding of `find_best_commanders.sanitize_commander_name`; the body
is transcribed from its own source site (it is line-for-line the same
pipeline as the collection sanitizer). -/
def sanitize_commander_name (s : String) : String :=
  let cs := s.data
  let cs := removeChar ',' cs
  let cs := removeChar '\'' cs
  let cs := removeChar ':' cs
  let cs := mapChar '/' '_' cs
  let cs := mapChar '-' '_' cs
  ⟨joinUnderscore (pySplitWS cs)⟩

/-! ## Color-legality filter (`complete_deck.card_is_legal_in_colors`,
lines 220–257). -/

/-- Outcome of the remote exact-name lookup consumed by the filter.
`ok colors` models a 200 response whose parsed body yielded
`data.get("color_identity", [])` (a missing field gives `ok []`).
`fail` models every other outcome: non-200 status, network error,
timeout, or a payload malformed enough to raise inside the `try` block
(all are caught and reported as legal). -/
inductive ColorLookup where
  | ok (colors : List String)
  | fail
deriving DecidableEq

/-- Embedding of `card_is_legal_in_colors`.  The card name itself only
feeds the HTTP request, so the model takes the lookup outcome directly.
Note that only the commander's colors are upper-cased
(`set(c.upper() for c in commander_colors)`); the card's colors are used
exactly as returned (`set(card_colors)`). -/
def card_is_legal_in_colors (lookup : ColorLookup) (commander_colors : List String) : Bool :=
  if commander_colors.isEmpty then true
  else
    let commanderSet := commander_colors.map pyUpper
    match lookup with
    | .ok card_colors => card_colors.all (fun c => commanderSet.contains c)
    | .fail => true

/-! ## Inventory loading (`complete_deck.load_inventory`, lines 45–63,
and `add_collection_tags.load_inventory`, lines 16–39). -/

/-- Value stored per lower-cased name by `complete_deck.load_inventory`:
display name of the first row seen, summed quantity, and the list of
`source` labels appended one per row. -/
structure InvEntry where
  name : String
  quantity : ℤ
  collections : List String
deriving DecidableEq

/-- First-match membership test on an insertion-ordered assoc list
(models Python `key in dict`). -/
def keysContain {α : Type} (l : List (String × α)) (k : String) : Bool :=
  l.any (fun p => p.1 = k)

/-- First-match lookup on an insertion-ordered assoc list
(models Python `dict[key]`; parsed dicts have unique keys). -/
def alookup {α : Type} : List (String × α) → String → Option α
  | [], _ => none
  | (k', v) :: t, k => if k' = k then some v else alookup t k

/-- In-place update for `complete_deck.load_inventory`: add the row's
quantity and append the row's source label to the entry at `key`. -/
def updateInvEntry : List (String × InvEntry) → String → ℤ → String → List (String × InvEntry)
  | [], _, _, _ => []
  | (k, e) :: t, key, q, src =>
    if k = key then
      (k, { e with quantity := e.quantity + q, collections := e.collections ++ [src] }) :: t
    else (k, e) :: updateInvEntry t key q src

/-- One iteration of the row loop in `complete_deck.load_inventory`:
insert a fresh entry if the lower-cased name is absent, then add the
row's quantity and append its source label. -/
def cdLoadStep (m : List (String × InvEntry)) (row : String × ℤ × String) :
    List (String × InvEntry) :=
  updateInvEntry
    (if keysContain m (pyLower row.1) then m else m ++ [(pyLower row.1, ⟨row.1, 0, []⟩)])
    (pyLower row.1) row.2.1 row.2.2

/-- Embedding of `complete_deck.load_inventory` over the CSV rows
`(name, quantity, source)`.  Note the `collections` list is appended to
for every row, with no deduplication. -/
def load_inventory_cd (rows : List (String × ℤ × String)) : List (String × InvEntry) :=
  rows.foldl cdLoadStep []

/-- In-place update for `add_collection_tags.load_inventory`: append the
label only if it is not already present. -/
def addCollectionLabel : List (String × List String) → String → String → List (String × List String)
  | [], _, _ => []
  | (k, cs) :: t, key, src =>
    if k = key then (k, if cs.contains src then cs else cs ++ [src]) :: t
    else (k, cs) :: addCollectionLabel t key src

/-- One iteration of the row loop in `add_collection_tags.load_inventory`. -/
def actLoadStep (m : List (String × List String)) (row : String × ℤ × String) :
    List (String × List String) :=
  addCollectionLabel
    (if keysContain m (pyLower row.1) then m else m ++ [(pyLower row.1, [])])
    (pyLower row.1) row.2.2

/-- Embedding of `add_collection_tags.load_inventory` (card → deduplicated
label list; the quantity column is not read by this loader). -/
def load_inventory_act (rows : List (String × ℤ × String)) : List (String × List String) :=
  rows.foldl actLoadStep []

/-! ## Assoc-list lemmas shared by several claims -/

theorem alookup_append_none {α : Type} (l1 l2 : List (String × α)) (k : String)
    (h : alookup l1 k = none) : alookup (l1 ++ l2) k = alookup l2 k := by
  induction l1 with
  | nil => rfl
  | cons p t ih =>
    obtain ⟨k', v⟩ := p
    by_cases hk : k' = k
    · simp [alookup, hk] at h
    · rw [alookup, if_neg hk] at h
      simpa [alookup, hk] using ih h

theorem alookup_append_some {α : Type} (l1 l2 : List (String × α)) (k : String) (v : α)
    (h : alookup l1 k = some v) : alookup (l1 ++ l2) k = some v := by
  induction l1 with
  | nil => simp [alookup] at h
  | cons p t ih =>
    obtain ⟨k', w⟩ := p
    by_cases hk : k' = k
    · rw [alookup, if_pos hk] at h
      simpa [alookup, hk] using h
    · rw [alookup, if_neg hk] at h
      simpa [alookup, hk] using ih h

theorem keysContain_iff {α : Type} (l : List (String × α)) (k : String) :
    keysContain l k = true ↔ (alookup l k).isSome := by
  induction l with
  | nil => simp [keysContain, alookup]
  | cons p t ih =>
    obtain ⟨k', v⟩ := p
    by_cases h : k' = k <;> simp [keysContain, alookup, h] at ih ⊢
    exact ih

theorem updateInvEntry_ne (l : List (String × InvEntry)) (key k : String) (q : ℤ) (src : String)
    (h : k ≠ key) : alookup (updateInvEntry l key q src) k = alookup l k := by
  induction l with
  | nil => rfl
  | cons p t ih =>
    obtain ⟨k', e⟩ := p
    simp only [updateInvEntry]
    by_cases hk : k' = key
    · rw [if_pos hk]
      have hne : k' ≠ k := fun hh => h (hh ▸ hk)
      simp [alookup, hne]
    · rw [if_neg hk]
      by_cases hk2 : k' = k
      · simp [alookup, hk2]
      · simp [alookup, hk2, ih]

theorem updateInvEntry_eq (l : List (String × InvEntry)) (key : String) (q : ℤ) (src : String) :
    alookup (updateInvEntry l key q src) key =
      (alookup l key).map
        (fun e => { e with quantity := e.quantity + q, collections := e.collections ++ [src] }) := by
  induction l with
  | nil => rfl
  | cons p t ih =>
    obtain ⟨k', e⟩ := p
    simp only [updateInvEntry]
    by_cases hk : k' = key
    · rw [if_pos hk]
      simp [alookup, hk]
    · rw [if_neg hk]
      simp [alookup, hk, ih]

theorem addCollectionLabel_ne (l : List (String × List String)) (key k src : String)
    (h : k ≠ key) : alookup (addCollectionLabel l key src) k = alookup l k := by
  induction l with
  | nil => rfl
  | cons p t ih =>
    obtain ⟨k', cs⟩ := p
    simp only [addCollectionLabel]
    by_cases hk : k' = key
    · rw [if_pos hk]
      have hne : k' ≠ k := fun hh => h (hh ▸ hk)
      simp [alookup, hne]
    · rw [if_neg hk]
      by_cases hk2 : k' = k
      · simp [alookup, hk2]
      · simp [alookup, hk2, ih]

theorem addCollectionLabel_eq (l : List (String × List String)) (key src : String) :
    alookup (addCollectionLabel l key src) key =
      (alookup l key).map (fun cs => if cs.contains src then cs else cs ++ [src]) := by
  induction l with
  | nil => rfl
  | cons p t ih =>
    obtain ⟨k', cs⟩ := p
    simp only [addCollectionLabel]
    by_cases hk : k' = key
    · rw [if_pos hk]
      simp [alookup, hk]
    · rw [if_neg hk]
      simp [alookup, hk, ih]

/-! ## C8: inventory aggregation -/

/-- Total quantity that the rows whose lower-cased name is `k` contribute. -/
def rowsQuantity (rows : List (String × ℤ × String)) (k : String) : ℤ :=
  ((rows.filter (fun r => pyLower r.1 = k)).map (fun r => r.2.1)).sum

/-- Quantity currently recorded for `k`, reading an absent key as 0. -/
def storedQuantity (m : List (String × InvEntry)) (k : String) : ℤ :=
  ((alookup m k).map InvEntry.quantity).getD 0

theorem cdLoadStep_quantity (m : List (String × InvEntry)) (row : String × ℤ × String)
    (k : String) :
    storedQuantity (cdLoadStep m row) k =
      storedQuantity m k + (if pyLower row.1 = k then row.2.1 else 0) := by
  simp only [cdLoadStep, storedQuantity]
  by_cases hk : pyLower row.1 = k
  · rw [hk, if_pos rfl]
    by_cases hc : keysContain m k
    · rw [if_pos hc, updateInvEntry_eq]
      rw [keysContain_iff] at hc
      obtain ⟨e, he⟩ := Option.isSome_iff_exists.mp hc
      simp [he]
    · rw [if_neg hc, updateInvEntry_eq]
      have hnone : alookup m k = none := by
        have : ¬ (alookup m k).isSome = true := fun h => hc ((keysContain_iff m k).mpr h)
        cases halo : alookup m k
        · rfl
        · exact absurd (by simp [halo]) this
      rw [alookup_append_none _ _ _ hnone]
      simp [alookup, hnone]
  · rw [if_neg hk]
    have hne : k ≠ pyLower row.1 := fun h => hk h.symm
    by_cases hc : keysContain m (pyLower row.1)
    · rw [if_pos hc, updateInvEntry_ne _ _ _ _ _ hne]
      simp
    · rw [if_neg hc, updateInvEntry_ne _ _ _ _ _ hne]
      cases halo : alookup m k with
      | some e => rw [alookup_append_some _ _ _ _ halo]; simp
      | none =>
        rw [alookup_append_none _ _ _ halo]
        have hne2 : pyLower row.1 ≠ k := hk
        simp [alookup, hne2]

theorem load_inventory_cd_quantity_aux (rows : List (String × ℤ × String))
    (m : List (String × InvEntry)) (k : String) :
    storedQuantity (rows.foldl cdLoadStep m) k = storedQuantity m k + rowsQuantity rows k := by
  induction rows generalizing m with
  | nil => simp [rowsQuantity]
  | cons row rest ih =>
    rw [List.foldl_cons, ih, cdLoadStep_quantity]
    unfold rowsQuantity
    by_cases hk : pyLower row.1 = k
    · simp [List.filter_cons, hk, rowsQuantity]
      ring
    · simp [List.filter_cons, hk, rowsQuantity]

/-- Dedup invariant for the tagger's loader: every stored label list has
no duplicates. -/
def actNodup (m : List (String × List String)) : Prop :=
  ∀ k cs, alookup m k = some cs → cs.Nodup

theorem actLoadStep_nodup (m : List (String × List String)) (row : String × ℤ × String)
    (h : actNodup m) : actNodup (actLoadStep m row) := by
  intro k cs hcs
  simp only [actLoadStep] at hcs
  by_cases hk : k = pyLower row.1
  · rw [← hk] at hcs
    by_cases hc : keysContain m k
    · rw [if_pos hc, addCollectionLabel_eq] at hcs
      obtain ⟨cs0, hcs0, heq⟩ := Option.map_eq_some'.mp hcs
      have hnd := h k cs0 hcs0
      by_cases hin : cs0.contains row.2.2
      · rw [if_pos hin] at heq
        exact heq ▸ hnd
      · rw [if_neg hin] at heq
        subst heq
        refine List.Nodup.append hnd (List.nodup_singleton _) ?_
        intro a ha hb
        simp at hb
        subst hb
        simp at hin
        exact hin ha
    · rw [if_neg hc, addCollectionLabel_eq] at hcs
      have hnone : alookup m k = none := by
        have h2 : ¬ (alookup m k).isSome = true := fun hh => hc ((keysContain_iff m k).mpr hh)
        cases halo : alookup m k
        · rfl
        · exact absurd (by simp [halo]) h2
      rw [alookup_append_none _ _ _ hnone] at hcs
      simp [alookup] at hcs
      subst hcs
      exact List.nodup_singleton _
  · by_cases hc : keysContain m (pyLower row.1)
    · rw [if_pos hc, addCollectionLabel_ne _ _ _ _ hk] at hcs
      exact h k cs hcs
    · rw [if_neg hc, addCollectionLabel_ne _ _ _ _ hk] at hcs
      cases halo : alookup m k with
      | some cs0 =>
        rw [alookup_append_some _ _ _ _ halo] at hcs
        exact h k cs (halo.trans hcs)
      | none =>
        rw [alookup_append_none _ _ _ halo] at hcs
        have hne2 : pyLower row.1 ≠ k := fun hh => hk hh.symm
        simp [alookup, hne2] at hcs

theorem load_inventory_act_nodup_aux (rows : List (String × ℤ × String))
    (m : List (String × List String)) (h : actNodup m) :
    actNodup (rows.foldl actLoadStep m) := by
  induction rows generalizing m with
  | nil => exact h
  | cons row rest ih => exact ih _ (actLoadStep_nodup _ _ h)

/-- C8 counterexample: the deck-completer's loader
(`complete_deck.load_inventory`) does NOT deduplicate the origin-collection
labels — two rows with the same `source` value yield that label twice, so
the stored labels are not the "deduplicated set" the claim describes. -/
theorem c8_counterexample :
    alookup (load_inventory_cd [("Sol Ring", 1, "SetA"), ("Sol Ring", 2, "SetA")]) "sol ring"
      = some ⟨"Sol Ring", 3, ["SetA", "SetA"]⟩ ∧
    ¬ (["SetA", "SetA"] : List String).Nodup := by
  exact ⟨by decide, by decide⟩

/-- C8 (amended): inventory loading keys records by the lower-cased card
name and sums owned quantity across duplicate rows; the example rows
("Sol Ring", 1, "SetA") and ("Sol Ring", 2, "SetB") yield quantity 3 and
labels ["SetA", "SetB"] under key "sol ring" in both loaders; the tagger's
loader (`add_collection_tags.load_inventory`) stores a deduplicated label
list, while the deck-completer's loader (`complete_deck.load_inventory`)
appends one label per row without deduplication (see the counterexample). -/
theorem c8_theorem :
    (alookup (load_inventory_cd [("Sol Ring", 1, "SetA"), ("Sol Ring", 2, "SetB")]) "sol ring"
       = some ⟨"Sol Ring", 3, ["SetA", "SetB"]⟩) ∧
    (alookup (load_inventory_act [("Sol Ring", 1, "SetA"), ("Sol Ring", 2, "SetB")]) "sol ring"
       = some ["SetA", "SetB"]) ∧
    (∀ rows k e, alookup (load_inventory_cd rows) k = some e →
       e.quantity = rowsQuantity rows k) ∧
    (∀ rows k cs, alookup (load_inventory_act rows) k = some cs → cs.Nodup) := by
  refine ⟨by decide, by decide, ?_, ?_⟩
  · intro rows k e he
    have h2 := load_inventory_cd_quantity_aux rows [] k
    unfold load_inventory_cd at he
    simp only [storedQuantity] at h2
    rw [he] at h2
    simpa [alookup] using h2
  · intro rows k cs hcs
    exact load_inventory_act_nodup_aux rows [] (by intro k cs h; simp [alookup] at h) k cs hcs

/-- Witness for C8: the amended theorem applied at the example input. -/
theorem c8_theorem_witness :
    (InvEntry.mk "Sol Ring" 3 ["SetA", "SetB"]).quantity
      = rowsQuantity [("Sol Ring", 1, "SetA"), ("Sol Ring", 2, "SetB")] "sol ring" ∧
    (["SetA", "SetB"] : List String).Nodup := by
  constructor
  · exact c8_theorem.2.2.1 [("Sol Ring", 1, "SetA"), ("Sol Ring", 2, "SetB")] "sol ring"
      ⟨"Sol Ring", 3, ["SetA", "SetB"]⟩ (by decide)
  · exact c8_theorem.2.2.2 [("Sol Ring", 1, "SetA"), ("Sol Ring", 2, "SetB")] "sol ring"
      ["SetA", "SetB"] (by decide)

/-! ## C3: color-legality filter -/

/-- C3 counterexample: the filter upper-cases only the commander's side.
With a lookup that returns a lower-case "w" and commander colors ["W"],
the code reports illegal, while the claim's "both sides upper-cased"
subset test would report legal. -/
theorem c3_counterexample :
    card_is_legal_in_colors (ColorLookup.ok ["w"]) ["W"] = false ∧
    (["w"].map pyUpper).all (fun c => (["W"].map pyUpper).contains c) = true := by
  exact ⟨by decide, by decide⟩

/-- C3 (amended): the color-legality check returns the subset test with
the commander's colors upper-cased and the candidate's colors used exactly
as returned by the lookup; it returns true whenever the commander's color
set is empty, and true on any lookup failure (the filter never raises —
it is a total function). -/
theorem c3_theorem :
    (∀ cc : List String, cc ≠ [] → ∀ cs, card_is_legal_in_colors (ColorLookup.ok cs) cc
        = cs.all (fun c => (cc.map pyUpper).contains c)) ∧
    (∀ lk, card_is_legal_in_colors lk [] = true) ∧
    (∀ cc, card_is_legal_in_colors ColorLookup.fail cc = true) := by
  refine ⟨?_, ?_, ?_⟩
  · intro cc h cs
    cases cc with
    | nil => exact absurd rfl h
    | cons a t => simp [card_is_legal_in_colors]
  · intro lk
    cases lk <;> rfl
  · intro cc
    cases cc <;> simp [card_is_legal_in_colors]

/-- Witness for C3: a candidate with identity {U,B} is legal for a
commander with identity {W,U,B,G} (spec §8 property 4). -/
theorem c3_theorem_witness :
    card_is_legal_in_colors (ColorLookup.ok ["U", "B"]) ["W", "U", "B", "G"] = true := by
  rw [c3_theorem.1 ["W", "U", "B", "G"] (by decide) ["U", "B"]]
  decide

/-! ## C9 / C10: tag sanitization -/

/-- C9 counterexample: the period is not removed by
`sanitize_collection_name`, so the documented example maps to
"Commanders_Precons_Vol._2", not "Commanders_Precons_Vol_2". -/
theorem c9_counterexample :
    sanitize_collection_name "Commander's Precons, Vol. 2" = "Commanders_Precons_Vol._2" ∧
    sanitize_collection_name "Commander's Precons, Vol. 2" ≠ "Commanders_Precons_Vol_2" := by
  exact ⟨by decide, by decide⟩

theorem joinUnderscore_mem (ll : List (List Char)) (c : Char) (h : c ∈ joinUnderscore ll) :
    c = '_' ∨ ∃ w ∈ ll, c ∈ w := by
  induction ll with
  | nil => simp [joinUnderscore] at h
  | cons w ws ih =>
    cases ws with
    | nil =>
      simp [joinUnderscore] at h
      exact Or.inr ⟨w, by simp, h⟩
    | cons w2 ws2 =>
      rw [joinUnderscore, List.mem_append] at h
      rcases h with h | h
      · exact Or.inr ⟨w, by simp, h⟩
      · rcases List.mem_cons.mp h with h | h
        · exact Or.inl h
        · rcases ih h with h | ⟨w3, hw3, hc⟩
          · exact Or.inl h
          · exact Or.inr ⟨w3, by simp [hw3], hc⟩

theorem pySplitWSAux_mem (s : List Char) : ∀ (acc w : List Char) (c : Char),
    w ∈ pySplitWSAux s acc → c ∈ w →
    (c ∈ s ∧ c.isWhitespace = false) ∨ c ∈ acc := by
  induction s with
  | nil =>
    intro acc w c hw hc
    simp only [pySplitWSAux] at hw
    by_cases h : acc.isEmpty
    · rw [if_pos h] at hw
      simp at hw
    · rw [if_neg h] at hw
      simp at hw
      subst hw
      exact Or.inr (List.mem_reverse.mp hc)
  | cons c0 rest ih =>
    intro acc w c hw hc
    simp only [pySplitWSAux] at hw
    by_cases hws : c0.isWhitespace
    · rw [if_pos hws] at hw
      by_cases h : acc.isEmpty
      · rw [if_pos h] at hw
        rcases ih [] w c hw hc with ⟨h1, h2⟩ | h1
        · exact Or.inl ⟨List.mem_cons_of_mem _ h1, h2⟩
        · simp at h1
      · rw [if_neg h] at hw
        rcases List.mem_cons.mp hw with hw1 | hw1
        · subst hw1
          exact Or.inr (List.mem_reverse.mp hc)
        · rcases ih [] w c hw1 hc with ⟨h1, h2⟩ | h1
          · exact Or.inl ⟨List.mem_cons_of_mem _ h1, h2⟩
          · simp at h1
    · rw [if_neg hws] at hw
      rcases ih (c0 :: acc) w c hw hc with ⟨h1, h2⟩ | h1
      · exact Or.inl ⟨List.mem_cons_of_mem _ h1, h2⟩
      · rcases List.mem_cons.mp h1 with h2 | h2
        · subst h2
          exact Or.inl ⟨List.mem_cons_self _ _, by simpa using hws⟩
        · exact Or.inr h2

theorem mem_mapChar (a b : Char) (l : List Char) (c : Char) (h : c ∈ mapChar a b l) :
    c = b ∨ (c ∈ l ∧ c ≠ a) := by
  rw [mapChar, List.mem_map] at h
  obtain ⟨d, hd, hc⟩ := h
  by_cases h1 : d = a
  · rw [if_pos h1] at hc
    exact Or.inl hc.symm
  · rw [if_neg h1] at hc
    subst hc
    exact Or.inr ⟨hd, h1⟩

theorem mem_removeChar (x : Char) (l : List Char) (c : Char) (h : c ∈ removeChar x l) :
    c ∈ l ∧ c ≠ x := by
  rw [removeChar, List.mem_filter] at h
  exact ⟨h.1, by simpa using h.2⟩

/-- Characters surviving the pre-split sanitization pipeline. -/
theorem sanitize_pre_mem (cs : List Char) (c : Char)
    (h : c ∈ mapChar '-' '_' (mapChar '/' '_'
          (removeChar ':' (removeChar '\'' (removeChar ',' cs))))) :
    c = '_' ∨ (c ≠ ',' ∧ c ≠ '\'' ∧ c ≠ ':' ∧ c ≠ '/' ∧ c ≠ '-') := by
  rcases mem_mapChar _ _ _ _ h with h1 | ⟨h1, hne5⟩
  · exact Or.inl h1
  · rcases mem_mapChar _ _ _ _ h1 with h2 | ⟨h2, hne4⟩
    · exact Or.inl h2
    · obtain ⟨h3, hne3⟩ := mem_removeChar _ _ _ h2
      obtain ⟨h4, hne2⟩ := mem_removeChar _ _ _ h3
      obtain ⟨h5, hne1⟩ := mem_removeChar _ _ _ h4
      exact Or.inr ⟨hne1, hne2, hne3, hne4, hne5⟩

/-- C9 (amended): collection-label sanitization removes commas,
apostrophes and colons, maps each slash and hyphen to an underscore,
joins whitespace-separated words with single underscores, and preserves
the period: "Commander's Precons, Vol. 2" maps to
"Commanders_Precons_Vol._2".  No removed character and no whitespace
survives in the output. -/
theorem c9_theorem :
    sanitize_collection_name "Commander's Precons, Vol. 2" = "Commanders_Precons_Vol._2" ∧
    ∀ (s : String) (c : Char), c ∈ (sanitize_collection_name s).data →
      c ≠ ',' ∧ c ≠ '\'' ∧ c ≠ ':' ∧ c ≠ '/' ∧ c ≠ '-' ∧ c.isWhitespace = false := by
  refine ⟨by decide, ?_⟩
  intro s c hc
  unfold sanitize_collection_name at hc
  simp only at hc
  rcases joinUnderscore_mem _ _ hc with h | ⟨w, hw, hcw⟩
  · subst h
    refine ⟨by decide, by decide, by decide, by decide, by decide, by decide⟩
  · rcases pySplitWSAux_mem _ [] w c hw hcw with ⟨h1, h2⟩ | h1
    · rcases sanitize_pre_mem s.data c h1 with h | ⟨h3, h4, h5, h6, h7⟩
      · subst h
        refine ⟨by decide, by decide, by decide, by decide, by decide, by decide⟩
      · exact ⟨h3, h4, h5, h6, h7, h2⟩
    · simp at h1

/-- Witness for C9: the amended theorem applied to a concrete input with
an underscore-producing space. -/
theorem c9_theorem_witness :
    '_' ∈ (sanitize_collection_name "a b").data ∧ '_' ≠ ',' ∧ ('_').isWhitespace = false := by
  have hm : '_' ∈ (sanitize_collection_name "a b").data := by decide
  have h := c9_theorem.2 "a b" '_' hm
  exact ⟨hm, h.1, h.2.2.2.2.2⟩

/-- C10 (confirmed): the collection-label sanitizer and the commander-name
sanitizer compute the same function — their source bodies are the same
pipeline. -/
theorem c10_theorem : ∀ s : String, sanitize_collection_name s = sanitize_commander_name s :=
  fun _ => rfl

/-! ## C7: slug (`complete_deck.slug`, lines 263–271, identical to
`find_best_commanders.slug`, lines 73–90).  One definition embeds both. -/

/-- Finite fragment of `unicodedata.normalize('NFD', ·)`: the precomposed
Latin letters this program's card names can contain, decomposed into base
letter plus combining mark.  On ASCII the real NFD is the identity, which
the fallback branch of `nfdChar` reproduces exactly; characters outside
this table are left alone (a conservative under-approximation of full
Unicode NFD). -/
def nfdTable : List (Char × List Char) :=
  [('á', ['a', Char.ofNat 769]), ('é', ['e', Char.ofNat 769]), ('í', ['i', Char.ofNat 769]),
   ('ó', ['o', Char.ofNat 769]), ('ú', ['u', Char.ofNat 769]),
   ('à', ['a', Char.ofNat 768]), ('è', ['e', Char.ofNat 768]), ('ì', ['i', Char.ofNat 768]),
   ('ò', ['o', Char.ofNat 768]), ('ù', ['u', Char.ofNat 768]),
   ('â', ['a', Char.ofNat 770]), ('ê', ['e', Char.ofNat 770]), ('î', ['i', Char.ofNat 770]),
   ('ô', ['o', Char.ofNat 770]), ('û', ['u', Char.ofNat 770]),
   ('ä', ['a', Char.ofNat 776]), ('ë', ['e', Char.ofNat 776]), ('ï', ['i', Char.ofNat 776]),
   ('ö', ['o', Char.ofNat 776]), ('ü', ['u', Char.ofNat 776]),
   ('ñ', ['n', Char.ofNat 771]),
   ('Á', ['A', Char.ofNat 769]), ('É', ['E', Char.ofNat 769]), ('Í', ['I', Char.ofNat 769]),
   ('Ó', ['O', Char.ofNat 769]), ('Ú', ['U', Char.ofNat 769]),
   ('Ñ', ['N', Char.ofNat 771]), ('Ü', ['U', Char.ofNat 776])]

/-- NFD decomposition of one character (table fragment, identity off it). -/
def nfdChar (c : Char) : List Char :=
  match nfdTable.lookup c with
  | some l => l
  | none => [c]

/-- NFD decomposition of a character list. -/
def nfdList : List Char → List Char
  | [] => []
  | c :: rest => nfdChar c ++ nfdList rest

/-- Model of `unicodedata.category(char) == 'Mn'`: the combining
diacritical marks block U+0300–U+036F (the only marks `nfdChar` emits). -/
def isMn (c : Char) : Bool := 768 ≤ c.toNat && c.toNat ≤ 879

/-- The character class `[a-z0-9]` of the slug regex. -/
def isl (c : Char) : Bool :=
  (97 ≤ c.toNat && c.toNat ≤ 122) || (48 ≤ c.toNat && c.toNat ≤ 57)

/-- Model of `str.replace("â€™", "")`: remove every occurrence of the
three-character mojibake sequence (scanning left to right like Python). -/
def removeMoji : List Char → List Char
  | [] => []
  | [c] => [c]
  | [c, d] => [c, d]
  | c :: d :: e :: rest =>
    if c = 'â' ∧ d = '€' ∧ e = '™' then removeMoji rest
    else c :: removeMoji (d :: e :: rest)

mutual

/-- Model of `re.sub(r"[^a-z0-9]+", "-", s)`: copy `[a-z0-9]` characters,
replace each maximal run of other characters by a single hyphen. -/
def subRuns : List Char → List Char
  | [] => []
  | c :: rest => if isl c then c :: subRuns rest else '-' :: skipRun rest

/-- Consume the remainder of a non-`[a-z0-9]` run (its first character was
already replaced by the hyphen). -/
def skipRun : List Char → List Char
  | [] => []
  | c :: rest => if isl c then c :: subRuns rest else skipRun rest

end

/-- Model of Python `str.strip(x)` for a one-character strip set. -/
def pyStrip (x : Char) (l : List Char) : List Char :=
  ((l.dropWhile (fun d => d == x)).reverse.dropWhile (fun d => d == x)).reverse

/-- Sanitization pipeline of `slug` before the regex substitution:
NFD-normalize, strip combining marks, lower-case, remove apostrophes
(the source applies the same one-character replace twice), remove the
mojibake sequence, then remove commas, colons and periods. -/
def slugPre (l : List Char) : List Char :=
  removeChar '.' (removeChar ':' (removeChar ','
    (removeMoji (removeChar '\'' (((nfdList l).filter (fun c => !isMn c)).map lowerChar)))))

/-- Embedding of `slug` (both source files define it identically). -/
def slug (s : String) : String :=
  ⟨pyStrip '-' (subRuns (slugPre s.data))⟩

/-- Adjacent-pair relation ruling out two consecutive hyphens. -/
def okPair (a b : Char) : Prop := ¬(a = '-' ∧ b = '-')

theorem isl_ne_hyphen (c : Char) (h : isl c = true) : c ≠ '-' := by
  intro hc
  rw [hc] at h
  exact absurd h (by decide)

theorem pchar_toNat_le (c : Char) (h : isl c = true ∨ c = '-') : c.toNat ≤ 122 := by
  rcases h with h | h
  · simp [isl] at h
    omega
  · rw [h]; decide

theorem pchar_ne (c : Char) (h : isl c = true ∨ c = '-') (x : Char)
    (hx : isl x = false) (hxh : x ≠ '-') : c ≠ x := by
  rcases h with h | h
  · intro he
    rw [he, hx] at h
    cases h
  · rw [h]
    exact fun he => hxh he.symm

theorem nfdTable_keys_big : ∀ p ∈ nfdTable, 122 < p.1.toNat := by decide

theorem lookup_none_small (t : List (Char × List Char)) (c : Char)
    (hbig : ∀ p ∈ t, 122 < p.1.toNat) (hc : c.toNat ≤ 122) : t.lookup c = none := by
  induction t with
  | nil => rfl
  | cons p rest ih =>
    obtain ⟨k, v⟩ := p
    have hne : (c == k) = false := by
      refine beq_eq_false_iff_ne.mpr ?_
      intro h
      have hb : 122 < k.toNat := hbig (k, v) (List.mem_cons_self _ _)
      rw [h] at hc
      omega
    simp only [List.lookup, hne]
    exact ih (fun q hq => hbig q (List.mem_cons_of_mem _ hq))

theorem nfdChar_id (c : Char) (h : isl c = true ∨ c = '-') : nfdChar c = [c] := by
  rw [nfdChar, lookup_none_small nfdTable c nfdTable_keys_big (pchar_toNat_le c h)]

theorem nfdList_id (l : List Char) (h : ∀ c ∈ l, isl c = true ∨ c = '-') : nfdList l = l := by
  induction l with
  | nil => rfl
  | cons c rest ih =>
    rw [nfdList, nfdChar_id c (h c (List.mem_cons_self _ _)),
      ih (fun d hd => h d (List.mem_cons_of_mem _ hd))]
    rfl

theorem lowerChar_id (c : Char) (h : isl c = true ∨ c = '-') : lowerChar c = c := by
  rcases h with h | h
  · simp [isl] at h
    rw [lowerChar, if_neg (by omega)]
  · rw [h]; decide

theorem isMn_false (c : Char) (h : isl c = true ∨ c = '-') : isMn c = false := by
  have := pchar_toNat_le c h
  simp [isMn]
  omega

theorem removeChar_id (x : Char) (l : List Char) (h : ∀ c ∈ l, c ≠ x) : removeChar x l = l := by
  rw [removeChar, List.filter_eq_self]
  intro a ha
  simpa using h a ha

theorem removeMoji_id : ∀ l : List Char, 'â' ∉ l → removeMoji l = l
  | [], _ => rfl
  | [_], _ => rfl
  | [_, _], _ => rfl
  | c :: d :: e :: rest, h => by
    have hc : ¬(c = 'â' ∧ d = '€' ∧ e = '™') := by
      intro hx
      exact h (by rw [← hx.1]; exact List.mem_cons_self _ _)
    rw [removeMoji, if_neg hc,
      removeMoji_id (d :: e :: rest) (fun hm => h (List.mem_cons_of_mem _ hm))]

mutual

theorem subRuns_chars : ∀ (l : List Char) (c : Char), c ∈ subRuns l → isl c = true ∨ c = '-'
  | [], c, hc => by simp [subRuns] at hc
  | d :: rest, c, hc => by
    rw [subRuns] at hc
    by_cases hd : isl d
    · rw [if_pos hd] at hc
      rcases List.mem_cons.mp hc with h | h
      · exact Or.inl (by rw [h]; exact hd)
      · exact subRuns_chars rest c h
    · rw [if_neg hd] at hc
      rcases List.mem_cons.mp hc with h | h
      · exact Or.inr h
      · exact skipRun_chars rest c h

theorem skipRun_chars : ∀ (l : List Char) (c : Char), c ∈ skipRun l → isl c = true ∨ c = '-'
  | [], c, hc => by simp [skipRun] at hc
  | d :: rest, c, hc => by
    rw [skipRun] at hc
    by_cases hd : isl d
    · rw [if_pos hd] at hc
      rcases List.mem_cons.mp hc with h | h
      · exact Or.inl (by rw [h]; exact hd)
      · exact subRuns_chars rest c h
    · rw [if_neg hd] at hc
      exact skipRun_chars rest c hc

end

mutual

theorem subRuns_chain : ∀ l : List Char, List.Chain' okPair (subRuns l)
  | [] => by simp [subRuns]
  | d :: rest => by
    rw [subRuns]
    by_cases hd : isl d
    · rw [if_pos hd, List.chain'_cons']
      exact ⟨fun y _ hp => isl_ne_hyphen d hd hp.1, subRuns_chain rest⟩
    · rw [if_neg hd, List.chain'_cons']
      refine ⟨?_, (skipRun_good rest).1⟩
      intro y hy hp
      exact isl_ne_hyphen y ((skipRun_good rest).2 y hy) hp.2

theorem skipRun_good : ∀ l : List Char,
    List.Chain' okPair (skipRun l) ∧ ∀ c, (skipRun l).head? = some c → isl c = true
  | [] => by
    constructor
    · simp [skipRun]
    · intro c hc
      simp [skipRun] at hc
  | d :: rest => by
    rw [skipRun]
    by_cases hd : isl d
    · rw [if_pos hd]
      constructor
      · rw [List.chain'_cons']
        exact ⟨fun y _ hp => isl_ne_hyphen d hd hp.1, subRuns_chain rest⟩
      · intro c hc
        simp at hc
        rw [← hc]
        exact hd
    · rw [if_neg hd]
      exact skipRun_good rest

end

theorem getLast?_tail_ne (a b : Char) (l : List Char)
    (h : (a :: b :: l).getLast? ≠ some '-') : (b :: l).getLast? ≠ some '-' := by
  rw [List.getLast?_cons_cons] at h
  exact h

theorem subRuns_id : ∀ l : List Char,
    (∀ c ∈ l, isl c = true ∨ c = '-') → List.Chain' okPair l → l.getLast? ≠ some '-' →
    subRuns l = l
  | [], _, _, _ => rfl
  | [c], hm, _, hl => by
    rcases hm c (by simp) with h | h
    · simp [subRuns, h]
    · rw [h] at hl
      simp at hl
  | c :: d :: rest, hm, hch, hl => by
    rcases hm c (by simp) with h | h
    · rw [subRuns, if_pos h,
        subRuns_id (d :: rest) (fun e he => hm e (List.mem_cons_of_mem _ he))
          hch.tail (getLast?_tail_ne _ _ _ hl)]
    · rw [h] at hm hch hl ⊢
      have hisl : isl '-' = false := by decide
      rw [subRuns, if_neg (by simp [hisl])]
      have hd : d ≠ '-' := by
        intro hdd
        exact (List.chain'_cons.mp hch).1 ⟨rfl, hdd⟩
      have hdisl : isl d = true := by
        rcases hm d (by simp) with h2 | h2
        · exact h2
        · exact absurd h2 hd
      have hlast : rest.getLast? ≠ some '-' := by
        cases rest with
        | nil => simp
        | cons e t => exact getLast?_tail_ne _ _ _ (getLast?_tail_ne _ _ _ hl)
      rw [skipRun, if_pos hdisl,
        subRuns_id rest
          (fun e he => hm e (List.mem_cons_of_mem _ (List.mem_cons_of_mem _ he)))
          hch.tail.tail hlast]

theorem head?_dropWhile_false (p : Char → Bool) :
    ∀ (l : List Char) (c : Char), (l.dropWhile p).head? = some c → p c = false := by
  intro l
  induction l with
  | nil =>
    intro c h
    simp [List.dropWhile] at h
  | cons d rest ih =>
    intro c h
    rw [List.dropWhile_cons] at h
    by_cases hd : p d
    · rw [if_pos hd] at h
      exact ih c h
    · rw [if_neg hd] at h
      simp at h
      rw [← h]
      simpa using hd

theorem dropWhile_self_of_head (p : Char → Bool) (l : List Char)
    (h : ∀ c, l.head? = some c → p c = false) : l.dropWhile p = l := by
  cases l with
  | nil => rfl
  | cons d rest => rw [List.dropWhile_cons, if_neg (by simp [h d rfl])]

theorem mem_pyStrip (x : Char) (l : List Char) (c : Char) (h : c ∈ pyStrip x l) : c ∈ l := by
  rw [pyStrip, List.mem_reverse] at h
  have h2 := (List.dropWhile_sublist _).subset h
  rw [List.mem_reverse] at h2
  exact (List.dropWhile_sublist _).subset h2

theorem pyStrip_last (x : Char) (l : List Char) (c : Char)
    (h : (pyStrip x l).getLast? = some c) : c ≠ x := by
  rw [pyStrip, List.getLast?_reverse] at h
  have := head?_dropWhile_false _ _ _ h
  simpa using this

theorem pyStrip_head (x : Char) (l : List Char) (c : Char)
    (h : (pyStrip x l).head? = some c) : c ≠ x := by
  rw [pyStrip, List.head?_reverse] at h
  have hsuf : (l.dropWhile (fun d => d == x)).reverse.dropWhile (fun d => d == x)
      <:+ (l.dropWhile (fun d => d == x)).reverse := List.dropWhile_suffix _
  obtain ⟨t, ht⟩ := hsuf
  have hne : (l.dropWhile (fun d => d == x)).reverse.dropWhile (fun d => d == x) ≠ [] := by
    intro h0
    rw [h0] at h
    simp at h
  have h2 : (l.dropWhile (fun d => d == x)).reverse.getLast? = some c := by
    rw [← ht, List.getLast?_append_of_ne_nil _ hne]
    exact h
  rw [List.getLast?_reverse] at h2
  have := head?_dropWhile_false _ _ _ h2
  simpa using this

theorem pyStrip_chain (x : Char) (l : List Char) (h : List.Chain' okPair l) :
    List.Chain' okPair (pyStrip x l) := by
  rw [pyStrip]
  have hsymm : ∀ a b : Char, okPair a b → okPair b a := fun a b hab hp => hab ⟨hp.2, hp.1⟩
  have h1 : List.Chain' okPair (l.dropWhile (fun d => d == x)) :=
    h.suffix (List.dropWhile_suffix _)
  have h2 : List.Chain' okPair (l.dropWhile (fun d => d == x)).reverse :=
    List.chain'_reverse.mpr (h1.imp (fun a b hab => hsymm a b hab))
  have h3 : List.Chain' okPair
      ((l.dropWhile (fun d => d == x)).reverse.dropWhile (fun d => d == x)) :=
    h2.suffix (List.dropWhile_suffix _)
  exact List.chain'_reverse.mpr (h3.imp (fun a b hab => hsymm a b hab))

theorem pyStrip_id (x : Char) (l : List Char)
    (hh : ∀ c, l.head? = some c → c ≠ x) (hl : ∀ c, l.getLast? = some c → c ≠ x) :
    pyStrip x l = l := by
  have e1 : l.dropWhile (fun d => d == x) = l :=
    dropWhile_self_of_head _ _ (fun c hc => by simpa using hh c hc)
  have e2 : l.reverse.dropWhile (fun d => d == x) = l.reverse :=
    dropWhile_self_of_head _ _ (fun c hc => by
      rw [List.head?_reverse] at hc
      simpa using hl c hc)
  rw [pyStrip, e1, e2, List.reverse_reverse]

/-- C7 (confirmed): `slug` output uses only `[a-z0-9-]`, has no leading or
trailing hyphen and no two consecutive hyphens, and `slug` is idempotent.
The NFD stage is modelled by the finite decomposition table `nfdTable`
(identity on ASCII, as the real NFD is). -/
theorem c7_theorem : ∀ x : String,
    (∀ c ∈ (slug x).data, isl c = true ∨ c = '-') ∧
    (∀ c, (slug x).data.head? = some c → c ≠ '-') ∧
    (∀ c, (slug x).data.getLast? = some c → c ≠ '-') ∧
    List.Chain' okPair (slug x).data ∧
    slug (slug x) = slug x := by
  intro x
  have hchars : ∀ c ∈ (slug x).data, isl c = true ∨ c = '-' := by
    intro c hc
    exact subRuns_chars _ c (mem_pyStrip _ _ _ hc)
  have hhead : ∀ c, (slug x).data.head? = some c → c ≠ '-' :=
    fun c hc => pyStrip_head _ _ _ hc
  have hlast : ∀ c, (slug x).data.getLast? = some c → c ≠ '-' :=
    fun c hc => pyStrip_last _ _ _ hc
  have hchain : List.Chain' okPair (slug x).data := pyStrip_chain _ _ (subRuns_chain _)
  refine ⟨hchars, hhead, hlast, hchain, ?_⟩
  have h1 : nfdList (slug x).data = (slug x).data := nfdList_id _ hchars
  have h2 : ((slug x).data).filter (fun c => !isMn c) = (slug x).data :=
    List.filter_eq_self.mpr (fun a ha => by rw [isMn_false a (hchars a ha)]; rfl)
  have h3 : ((slug x).data).map lowerChar = (slug x).data := by
    rw [List.map_congr_left (fun a ha => lowerChar_id a (hchars a ha)), List.map_id']
  have h4 : removeChar '\'' (slug x).data = (slug x).data :=
    removeChar_id _ _ (fun c hc => pchar_ne c (hchars c hc) '\'' (by decide) (by decide))
  have h5 : removeMoji (slug x).data = (slug x).data :=
    removeMoji_id _ (fun hm => (pchar_ne _ (hchars _ hm) 'â' (by decide) (by decide)) rfl)
  have h6 : removeChar ',' (slug x).data = (slug x).data :=
    removeChar_id _ _ (fun c hc => pchar_ne c (hchars c hc) ',' (by decide) (by decide))
  have h7 : removeChar ':' (slug x).data = (slug x).data :=
    removeChar_id _ _ (fun c hc => pchar_ne c (hchars c hc) ':' (by decide) (by decide))
  have h8 : removeChar '.' (slug x).data = (slug x).data :=
    removeChar_id _ _ (fun c hc => pchar_ne c (hchars c hc) '.' (by decide) (by decide))
  have hpre : slugPre (slug x).data = (slug x).data := by
    rw [slugPre, h1, h2, h3, h4, h5, h6, h7, h8]
  have hsub : subRuns (slug x).data = (slug x).data :=
    subRuns_id _ hchars hchain (fun h => (hlast '-' h) rfl)
  have hstrip : pyStrip '-' (slug x).data = (slug x).data := pyStrip_id _ _ hhead hlast
  calc slug (slug x) = ⟨pyStrip '-' (subRuns (slugPre (slug x).data))⟩ := rfl
    _ = ⟨(slug x).data⟩ := by rw [hpre, hsub, hstrip]
    _ = slug x := rfl

/-- Witness for C7: the conjuncts of the theorem at a concrete commander
name, with the membership hypothesis discharged by evaluation. -/
theorem c7_theorem_witness :
    slug (slug "Atraxa, Praetors' Voice") = slug "Atraxa, Praetors' Voice" ∧
    (isl 'a' = true ∨ 'a' = '-') ∧
    slug "Atraxa, Praetors' Voice" = "atraxa-praetors-voice" := by
  refine ⟨(c7_theorem ("Atraxa, Praetors' Voice")).2.2.2.2, ?_, by decide⟩
  exact (c7_theorem ("Atraxa, Praetors' Voice")).1 'a' (by decide)

/-! ## Parsed JSON payloads

The EDHREC payloads are parsed JSON of unknown shape.  `JValue` is the
usual tagged tree (numbers as `ℚ`; a Python parsed dict is a `JFields`
assoc list with unique keys in insertion order).  The mutual-inductive
presentation (instead of `List JValue` nesting) keeps every traversal
structurally recursive, so concrete payloads evaluate by `rfl`/`decide`. -/

mutual

inductive JValue where
  | null
  | bool (b : Bool)
  | num (q : ℚ)
  | str (s : String)
  | arr (xs : JList)
  | obj (fs : JFields)

inductive JList where
  | nil
  | cons (hd : JValue) (tl : JList)

inductive JFields where
  | nil
  | cons (key : String) (val : JValue) (tl : JFields)

end

deriving instance DecidableEq for JValue

/-- Sum view of `Except`, to derive decidable equality for result values. -/
def exceptToSum {e a : Type} : Except e a → Sum e a
  | .error x => .inl x
  | .ok x => .inr x

instance {e a : Type} [DecidableEq e] [DecidableEq a] : DecidableEq (Except e a) := fun x y =>
  decidable_of_iff (exceptToSum x = exceptToSum y) (by cases x <;> cases y <;> simp [exceptToSum])

/-- Build a `JFields` from a Lean list (payload notation helper). -/
def jfields : List (String × JValue) → JFields
  | [] => .nil
  | (k, v) :: t => .cons k v (jfields t)

/-- Build a `JList` from a Lean list (payload notation helper). -/
def jlist : List JValue → JList
  | [] => .nil
  | v :: t => .cons v (jlist t)

/-- Object literal helper. -/
def jobj (l : List (String × JValue)) : JValue := .obj (jfields l)

/-- Array literal helper. -/
def jarr (l : List JValue) : JValue := .arr (jlist l)

/-- Model of Python `obj.get(key)` / `key in obj` on a parsed dict. -/
def getField : JFields → String → Option JValue
  | .nil, _ => none
  | .cons k v t, key => if k = key then some v else getField t key

/-- Python truthiness of a parsed JSON value. -/
def truthy : JValue → Bool
  | .null => false
  | .bool b => b
  | .num q => q ≠ 0
  | .str s => s ≠ ""
  | .arr .nil => false
  | .arr (.cons _ _) => true
  | .obj .nil => false
  | .obj (.cons _ _ _) => true

/-- Numeric view of a value for Python arithmetic/comparison: numbers are
themselves and `bool` is the int 1/0 (Python `True/False` are ints);
everything else raises `TypeError` in Python, read as `none` here. -/
def jnumVal : JValue → Option ℚ
  | .num q => some q
  | .bool b => some (if b then 1 else 0)
  | _ => none

/-- Returning a parsed value from a Python function: a JSON `null` is the
Python object `None`, indistinguishable from "no result". -/
def retVal : JValue → Option JValue
  | .null => none
  | v => some v

/-- `depth`-nested one-key object, for exercising the depth cap. -/
def nestObj : Nat → JValue → JValue
  | 0, v => v
  | n + 1, v => .obj (.cons "k" (nestObj n v) .nil)

/-! ## C4: Schema-Free Extractor bounds and robustness
(`complete_deck.find_color_identity`, lines 142–167, and
`find_best_commanders.find_scryfall_for_card`, lines 125–147;
`complete_deck.find_scryfall_in_data`, lines 398–426, is the same walk). -/

mutual

/-- Embedding of `find_color_identity(obj, depth)`: the only extractor
with a depth guard (`if depth > 10: return None`).  Inside the loops a
falsy recursive result is discarded (`if result: return result`). -/
def find_color_identity (v : JValue) (depth : Nat) : Option JValue :=
  if depth > 10 then none
  else
    match v with
    | .obj fs =>
      match getField fs "coloridentity" with
      | some cv => retVal cv
      | none =>
        match getField fs "colors" with
        | some (.arr xs) => some (.arr xs)
        | _ => fciFields fs depth
    | .arr xs => fciList xs depth
    | _ => none

/-- The `for v in obj.values()` loop of `find_color_identity`. -/
def fciFields (fs : JFields) (depth : Nat) : Option JValue :=
  match fs with
  | .nil => none
  | .cons _ v t =>
    match find_color_identity v (depth + 1) with
    | some r => if truthy r then some r else fciFields t depth
    | none => fciFields t depth

/-- The `for item in obj` loop of `find_color_identity`. -/
def fciList (xs : JList) (depth : Nat) : Option JValue :=
  match xs with
  | .nil => none
  | .cons x t =>
    match find_color_identity x (depth + 1) with
    | some r => if truthy r then some r else fciList t depth
    | none => fciList t depth

end

/-- Helper used to state the `colors` alternative of `hasColorField`. -/
def colorsIsList (fs : JFields) : Bool :=
  match getField fs "colors" with
  | some (.arr _) => true
  | _ => false

mutual

/-- A tree node (at any depth) exposes a `coloridentity` field or a
list-valued `colors` field. -/
def hasColorField : JValue → Bool
  | .obj fs =>
    (getField fs "coloridentity").isSome || colorsIsList fs || hasCFFields fs
  | .arr xs => hasCFList xs
  | _ => false

def hasCFFields : JFields → Bool
  | .nil => false
  | .cons _ v t => hasColorField v || hasCFFields t

def hasCFList : JList → Bool
  | .nil => false
  | .cons x t => hasColorField x || hasCFList t

end

mutual

theorem fci_absent : ∀ (v : JValue), hasColorField v = false → ∀ d, find_color_identity v d = none
  | .null, _, d => by cases Nat.decLt 10 d <;> simp [find_color_identity]
  | .bool b, _, d => by simp [find_color_identity]
  | .num q, _, d => by simp [find_color_identity]
  | .str s, _, d => by simp [find_color_identity]
  | .arr xs, h, d => by
    rw [hasColorField] at h
    rw [find_color_identity]
    by_cases hd : d > 10
    · rw [if_pos hd]
    · rw [if_neg hd]
      exact fciL_absent xs h d
  | .obj fs, h, d => by
    rw [hasColorField] at h
    simp only [Bool.or_eq_false_iff] at h
    obtain ⟨⟨h1, h2⟩, h3⟩ := h
    rw [find_color_identity]
    by_cases hd : d > 10
    · rw [if_pos hd]
    · rw [if_neg hd]
      have h1n : getField fs "coloridentity" = none :=
        Option.not_isSome_iff_eq_none.mp (by rw [h1]; exact Bool.false_ne_true)
      rw [h1n]
      rw [colorsIsList] at h2
      cases hco : getField fs "colors" with
      | none => exact fciF_absent fs h3 d
      | some cv =>
        rw [hco] at h2
        cases cv with
        | arr xs => simp at h2
        | null => exact fciF_absent fs h3 d
        | bool b => exact fciF_absent fs h3 d
        | num q => exact fciF_absent fs h3 d
        | str s => exact fciF_absent fs h3 d
        | obj fs2 => exact fciF_absent fs h3 d

theorem fciF_absent : ∀ (fs : JFields), hasCFFields fs = false → ∀ d, fciFields fs d = none
  | .nil, _, d => rfl
  | .cons k v t, h, d => by
    rw [hasCFFields, Bool.or_eq_false_iff] at h
    rw [fciFields, fci_absent v h.1 (d + 1)]
    exact fciF_absent t h.2 d

theorem fciL_absent : ∀ (xs : JList), hasCFList xs = false → ∀ d, fciList xs d = none
  | .nil, _, d => rfl
  | .cons x t, h, d => by
    rw [hasCFList, Bool.or_eq_false_iff] at h
    rw [fciList, fci_absent x h.1 (d + 1)]
    exact fciL_absent t h.2 d

end

/-- Truthiness of the `found` state variable (Python `if found: return`);
`none` is the initial Python `None`. -/
def truthyO : Option JValue → Bool
  | none => false
  | some v => truthy v

mutual

/-- Embedding of the `scan` closure of `find_scryfall_for_card`
(`find_best_commanders.py` lines 125–147; `complete_deck.py`'s
`find_scryfall_in_data` is the same walk).  The `found` nonlocal is
threaded as state; there is NO depth guard in this walk.  A node whose
`name` field is truthy but not a string makes Python raise
`AttributeError` at `o["name"].lower()`, modelled as `.error ()`. -/
def fscScan (target : String) (o : JValue) (found : Option JValue) : Except Unit (Option JValue) :=
  if truthyO found then .ok found
  else
    match o with
    | .obj fs =>
      match getField fs "name" with
      | some nv =>
        if truthy nv then
          match nv with
          | .str s =>
            if pyLower s = target then
              match getField fs "scryfall_uri" with
              | some sv => .ok (some sv)
              | none => fscFields target fs found
            else fscFields target fs found
          | _ => .error ()
        else fscFields target fs found
      | none => fscFields target fs found
    | .arr xs => fscList target xs found
    | _ => .ok found

/-- The `for v in o.values()` loop of `find_scryfall_for_card.scan`. -/
def fscFields (target : String) (fs : JFields) (found : Option JValue) :
    Except Unit (Option JValue) :=
  match fs with
  | .nil => .ok found
  | .cons _ v t =>
    match fscScan target v found with
    | .ok f2 => fscFields target t f2
    | .error e => .error e

/-- The `for e in o` loop of `find_scryfall_for_card.scan`. -/
def fscList (target : String) (xs : JList) (found : Option JValue) :
    Except Unit (Option JValue) :=
  match xs with
  | .nil => .ok found
  | .cons x t =>
    match fscScan target x found with
    | .ok f2 => fscList target t f2
    | .error e => .error e

end

/-- Embedding of `find_scryfall_for_card(data, target_name)`.  A `data`
of JSON null coincides with the `data is None` early return: the scan of
a scalar leaves `found = None`. -/
def find_scryfall_for_card (data : JValue) (target_name : String) : Except Unit (Option JValue) :=
  fscScan (pyLower target_name) data none

/-- C4 counterexample: the claim's hard depth cap of 10 governs only
`find_color_identity`.  With the matching payload nested 12 objects deep,
`find_scryfall_for_card` still finds the link (its walk has no depth
guard), while `find_color_identity` — the capped walk — reports absent on
the identically nested color payload. -/
theorem c4_counterexample :
    find_scryfall_for_card
        (nestObj 12 (jobj [("name", JValue.str "target"), ("scryfall_uri", JValue.str "u")]))
        "target"
      = .ok (some (JValue.str "u")) ∧
    find_color_identity (nestObj 12 (jobj [("coloridentity", jarr [JValue.str "W"])])) 0
      = none := by
  exact ⟨rfl, rfl⟩

/-- C4 (amended): `find_color_identity` is a recursive walk with the hard
depth cap of 10: on any tree with no color field it returns absent (and,
being total, never raises), including the empty mapping and deep nests;
a color field buried below the cap is invisible, one within the cap is
found.  The other extractor walks have no depth cap — the card-link
finder reads through 12 levels — and that finder raises a type error
(rather than degrading to absent) when a node's `name` field is truthy
but not a string. -/
theorem c4_theorem :
    (∀ (v : JValue) (d : Nat), hasColorField v = false → find_color_identity v d = none) ∧
    find_color_identity (JValue.obj JFields.nil) 0 = none ∧
    find_color_identity (nestObj 12 (jobj [("coloridentity", jarr [JValue.str "B"])])) 0
      = none ∧
    find_color_identity (nestObj 9 (jobj [("coloridentity", jarr [JValue.str "B"])])) 0
      = some (jarr [JValue.str "B"]) ∧
    find_scryfall_for_card
        (nestObj 12 (jobj [("name", JValue.str "c"), ("scryfall_uri", JValue.str "s")])) "c"
      = .ok (some (JValue.str "s")) ∧
    find_scryfall_for_card (jobj [("name", JValue.num 5)]) "c" = .error () := by
  exact ⟨fun v d h => fci_absent v h d, rfl, rfl, rfl, rfl, rfl⟩

/-- Witness for C4: the universally quantified conjunct applied to a
concrete mapping with no color field anywhere. -/
theorem c4_theorem_witness :
    find_color_identity (jobj [("foo", JValue.num 1), ("bar", jarr [JValue.str "x"])]) 0
      = none :=
  c4_theorem.1 (jobj [("foo", JValue.num 1), ("bar", jarr [JValue.str "x"])]) 0 (by rfl)

/-! ## C5: commander-attachment extraction
(`find_best_commanders.extract_commanders_from_card_json`, lines 153–179). -/

/-- Model of Python `pat in s` (substring test). -/
def containsSubAux (pat : List Char) : List Char → Bool
  | [] => pat.isEmpty
  | c :: rest => pat.isPrefixOf (c :: rest) || containsSubAux pat rest

/-- Substring test on strings. -/
def containsSub (pat s : String) : Bool := containsSubAux pat.data s.data

/-- Node-local part of the `scan` in `extract_commanders_from_card_json`:
`url` must be a string containing "/commanders/"; `name`, `inclusion` and
`potential_decks` must be present and truthy (for numbers: nonzero — the
source tests Python truthiness, not positivity); then
`percent = inclusion / potential_decks` is kept only when `> 0.2`.
Truthy non-numeric counts make the division raise (`.error`). -/
def ecNode (fs : JFields) : Except Unit (List (JValue × ℚ)) :=
  match getField fs "url" with
  | some (.str u) =>
    if containsSub "/commanders/" u then
      match getField fs "name", getField fs "inclusion", getField fs "potential_decks" with
      | some nv, some iv, some pv =>
        if truthy nv && truthy iv && truthy pv then
          match jnumVal iv, jnumVal pv with
          | some a, some b => .ok (if a / b > 1/5 then [(nv, a / b)] else [])
          | _, _ => .error ()
        else .ok []
      | _, _, _ => .ok []
    else .ok []
  | _ => .ok []

mutual

/-- The recursive `scan` of `extract_commanders_from_card_json`: emit the
node's record (if any), then walk every value. -/
def ecScan : JValue → Except Unit (List (JValue × ℚ))
  | .obj fs =>
    match ecNode fs with
    | .ok r =>
      match ecFields fs with
      | .ok rest => .ok (r ++ rest)
      | .error e => .error e
    | .error e => .error e
  | .arr xs => ecList xs
  | _ => .ok []

def ecFields : JFields → Except Unit (List (JValue × ℚ))
  | .nil => .ok []
  | .cons _ v t =>
    match ecScan v with
    | .ok r =>
      match ecFields t with
      | .ok rest => .ok (r ++ rest)
      | .error e => .error e
    | .error e => .error e

def ecList : JList → Except Unit (List (JValue × ℚ))
  | .nil => .ok []
  | .cons x t =>
    match ecScan x with
    | .ok r =>
      match ecList t with
      | .ok rest => .ok (r ++ rest)
      | .error e => .error e
    | .error e => .error e

end

/-- Embedding of `extract_commanders_from_card_json`: find the card's own
Scryfall link first, then scan; every record carries that same link. -/
def extract_commanders_from_card_json (data : JValue) (card_name : String) :
    Except Unit (List (JValue × ℚ × Option JValue)) :=
  match find_scryfall_for_card data card_name with
  | .ok scry =>
    match ecScan data with
    | .ok rs => .ok (rs.map (fun p => (p.1, p.2, scry)))
    | .error e => .error e
  | .error e => .error e

mutual

/-- All mapping nodes of a tree, in traversal order (node before its
descendants, fields then array elements positionally). -/
def allNodes : JValue → List JFields
  | .obj fs => fs :: allNodesF fs
  | .arr xs => allNodesL xs
  | _ => []

def allNodesF : JFields → List JFields
  | .nil => []
  | .cons _ v t => allNodes v ++ allNodesF t

def allNodesL : JList → List JFields
  | .nil => []
  | .cons x t => allNodes x ++ allNodesL t

end

/-- Specification-side description of the record a single mapping node
emits (amended from the claim: counts must be present and truthy, i.e.
nonzero, not necessarily positive), with the `attachPercent <= 0.2`
discard floor. -/
def nodeRecord (fs : JFields) : Option (JValue × ℚ) :=
  match getField fs "url" with
  | some (.str u) =>
    if containsSub "/commanders/" u then
      match getField fs "name", getField fs "inclusion", getField fs "potential_decks" with
      | some nv, some iv, some pv =>
        if truthy nv && truthy iv && truthy pv then
          match jnumVal iv, jnumVal pv with
          | some a, some b => if a / b > 1/5 then some (nv, a / b) else none
          | _, _ => none
        else none
      | _, _, _ => none
    else none
  | _ => none

/-- A node is well-typed when the counts it would divide are numeric. -/
def nodeOK (fs : JFields) : Bool :=
  match getField fs "url" with
  | some (.str u) =>
    if containsSub "/commanders/" u then
      match getField fs "name", getField fs "inclusion", getField fs "potential_decks" with
      | some nv, some iv, some pv =>
        if truthy nv && truthy iv && truthy pv then
          (jnumVal iv).isSome && (jnumVal pv).isSome
        else true
      | _, _, _ => true
    else true
  | _ => true

mutual

/-- Every mapping node of the tree is well-typed. -/
def wtNodes : JValue → Bool
  | .obj fs => nodeOK fs && wtF fs
  | .arr xs => wtL xs
  | _ => true

def wtF : JFields → Bool
  | .nil => true
  | .cons _ v t => wtNodes v && wtF t

def wtL : JList → Bool
  | .nil => true
  | .cons x t => wtNodes x && wtL t

end

theorem ecNode_ok (fs : JFields) (h : nodeOK fs = true) :
    ecNode fs = .ok (nodeRecord fs).toList := by
  unfold ecNode nodeRecord
  unfold nodeOK at h
  repeat' split
  all_goals (try rfl)
  all_goals try simp_all
  all_goals
    (rename_i hnone
     obtain ⟨a, hae⟩ := Option.isSome_iff_exists.mp h.1
     obtain ⟨b, hbe⟩ := Option.isSome_iff_exists.mp h.2
     exact absurd hbe (hnone a b hae))

mutual

theorem ecScan_ok : ∀ v : JValue, wtNodes v = true →
    ecScan v = .ok (List.filterMap nodeRecord (allNodes v))
  | .null, _ => rfl
  | .bool b, _ => rfl
  | .num q, _ => rfl
  | .str s, _ => rfl
  | .arr xs, h => by
    rw [wtNodes] at h
    rw [ecScan, allNodes]
    exact ecList_ok xs h
  | .obj fs, h => by
    rw [wtNodes, Bool.and_eq_true] at h
    rw [ecScan, ecNode_ok fs h.1, ecFields_ok fs h.2, allNodes, List.filterMap_cons]
    cases nodeRecord fs <;> rfl

theorem ecFields_ok : ∀ fs : JFields, wtF fs = true →
    ecFields fs = .ok (List.filterMap nodeRecord (allNodesF fs))
  | .nil, _ => rfl
  | .cons k v t, h => by
    rw [wtF, Bool.and_eq_true] at h
    rw [ecFields, ecScan_ok v h.1, ecFields_ok t h.2, allNodesF, List.filterMap_append]

theorem ecList_ok : ∀ xs : JList, wtL xs = true →
    ecList xs = .ok (List.filterMap nodeRecord (allNodesL xs))
  | .nil, _ => rfl
  | .cons x t, h => by
    rw [wtL, Bool.and_eq_true] at h
    rw [ecList, ecScan_ok x h.1, ecList_ok t h.2, allNodesL, List.filterMap_append]

end

theorem nodeRecord_floor (fs : JFields) (r : JValue × ℚ) (h : nodeRecord fs = some r) :
    1/5 < r.2 := by
  rw [nodeRecord] at h
  repeat' split at h
  all_goals try cases h
  all_goals
    (rename_i hcond
     exact hcond)

/-- C5 counterexample: a node whose inclusion count and potential-deck
count are both NEGATIVE (hence not positive, but truthy) is emitted with
attachPercent 3/2, because the source tests Python truthiness
(`if name and inc and pot`), not positivity. -/
theorem c5_counterexample :
    extract_commanders_from_card_json
        (jobj [("url", JValue.str "/commanders/krenko-mob-boss"), ("name", JValue.str "n"),
               ("inclusion", JValue.num (-3)), ("potential_decks", JValue.num (-2))]) "c"
      = .ok [(JValue.str "n", (-3 : ℚ) / (-2), none)] ∧
    ((-3 : ℚ) / (-2) = 3 / 2) ∧ ¬ (0 < (-3 : ℚ)) ∧ ¬ (0 < (-2 : ℚ)) := by
  exact ⟨by with_unfolding_all decide, by norm_num, by norm_num, by norm_num⟩

/-- C5 (amended): on any tree whose matching nodes carry numeric counts
(and whose own-link search does not raise), the extractor emits a record
exactly for those mapping nodes whose "url" field is a string containing
"/commanders/" and whose name, inclusion count and potential-deck count
are all present and truthy (nonzero — not necessarily positive), with
attachPercent = inclusionCount / potentialDeckCount; every record with
attachPercent <= 0.2 is discarded (`nodeRecord` only returns percentages
strictly above 1/5). -/
theorem c5_theorem :
    (∀ (data : JValue) (nm : String) (sc : Option JValue),
       find_scryfall_for_card data nm = .ok sc → wtNodes data = true →
       extract_commanders_from_card_json data nm
         = .ok ((List.filterMap nodeRecord (allNodes data)).map (fun p => (p.1, p.2, sc)))) ∧
    (∀ (fs : JFields) (r : JValue × ℚ), nodeRecord fs = some r → 1/5 < r.2) := by
  constructor
  · intro data nm sc hsc hwt
    rw [extract_commanders_from_card_json, hsc, ecScan_ok data hwt]
  · exact nodeRecord_floor

/-- Witness for C5: the characterization applied to a concrete payload
with positive numeric counts. -/
theorem c5_theorem_witness :
    extract_commanders_from_card_json
        (jobj [("url", JValue.str "/commanders/x"), ("name", JValue.str "n"),
               ("inclusion", JValue.num 3), ("potential_decks", JValue.num 4)]) "c"
      = .ok [(JValue.str "n", (3 : ℚ) / 4, none)] := by
  rw [c5_theorem.1
    (jobj [("url", JValue.str "/commanders/x"), ("name", JValue.str "n"),
           ("inclusion", JValue.num 3), ("potential_decks", JValue.num 4)]) "c" none rfl rfl]
  with_unfolding_all decide

/-! ## C6: per-card synergies and their accumulation
(`complete_deck.get_card_synergies`, lines 347–392, and the accumulation
loop of `analyze_and_complete_deck`, lines 465–478). -/

/-- `MIN_SYNERGY_SCORE = 0.10` from the configuration block of
`complete_deck.py`. -/
def MIN_SYNERGY_SCORE : ℚ := 1/10

/-- Python dict assignment `synergies[k] = q`: overwrite in place or
append (insertion order preserved).  The `scryfall` component of the
stored value is omitted — no claim reads it. -/
def dictSet : List (String × ℚ) → String → ℚ → List (String × ℚ)
  | [], k, q => [(k, q)]
  | (k', v) :: t, k, q =>
    if k' = k then (k', q) :: t else (k', v) :: dictSet t k q

/-- Defaultdict increment `all_synergies[k]["score"] += q`. -/
def dictAdd : List (String × ℚ) → String → ℚ → List (String × ℚ)
  | [], k, q => [(k, q)]
  | (k', v) :: t, k, q =>
    if k' = k then (k', v + q) :: t else (k', v) :: dictAdd t k q

/-- Score lookup with the defaultdict default 0. -/
def dlookup (d : List (String × ℚ)) (k : String) : ℚ := (alookup d k).getD 0

/-- Convert a `JList` to a Lean list. -/
def jlistToList : JList → List JValue
  | .nil => []
  | .cons x t => x :: jlistToList t

/-- Items produced by Python `for card in obj["cardviews"]`: a list gives
its elements; iterating an empty dict or empty string gives nothing; any
other shape makes the loop body's `card.get` (or the iteration itself)
raise. -/
def cvItems : JValue → Except Unit (List JValue)
  | .arr xs => .ok (jlistToList xs)
  | .obj .nil => .ok []
  | .str "" => .ok []
  | _ => .error ()

/-- Body of the cardviews loop of `get_card_synergies.scan`: keep
`(name.lower(), synergy)` when the name is truthy and
`synergy > MIN_SYNERGY_SCORE` (strict).  A truthy non-numeric synergy
makes the comparison raise; a truthy non-string name makes
`name.lower()` raise. -/
def cvStep (card : JValue) (d : List (String × ℚ)) : Except Unit (List (String × ℚ)) :=
  match card with
  | .obj fs =>
    match getField fs "name" with
    | none => .ok d
    | some nv =>
      if truthy nv then
        match jnumVal ((getField fs "synergy").getD (JValue.num 0)) with
        | none => .error ()
        | some q =>
          if q > MIN_SYNERGY_SCORE then
            match nv with
            | .str s => .ok (dictSet d (pyLower s) q)
            | _ => .error ()
          else .ok d
      else .ok d
  | _ => .error ()

/-- The cardviews loop itself. -/
def foldCV : List JValue → List (String × ℚ) → Except Unit (List (String × ℚ))
  | [], d => .ok d
  | cv :: rest, d =>
    match cvStep cv d with
    | .ok d2 => foldCV rest d2
    | .error e => .error e

/-- Node-local part of `get_card_synergies.scan`: process the node's
`cardviews` collection if present. -/
def gcsNode (fs : JFields) (d : List (String × ℚ)) : Except Unit (List (String × ℚ)) :=
  match getField fs "cardviews" with
  | some cv =>
    match cvItems cv with
    | .ok items => foldCV items d
    | .error e => .error e
  | none => .ok d

mutual

/-- The recursive `scan` of `get_card_synergies`, threading the mutable
`synergies` dict as state (the node is processed before its values, and
the walk then recurses into every value, `cardviews` included). -/
def gcsScan : JValue → List (String × ℚ) → Except Unit (List (String × ℚ))
  | .obj fs, d =>
    match gcsNode fs d with
    | .ok d2 => gcsFields fs d2
    | .error e => .error e
  | .arr xs, d => gcsList xs d
  | .null, d => .ok d
  | .bool _, d => .ok d
  | .num _, d => .ok d
  | .str _, d => .ok d

def gcsFields : JFields → List (String × ℚ) → Except Unit (List (String × ℚ))
  | .nil, d => .ok d
  | .cons _ v t, d =>
    match gcsScan v d with
    | .ok d2 => gcsFields t d2
    | .error e => .error e

def gcsList : JList → List (String × ℚ) → Except Unit (List (String × ℚ))
  | .nil, d => .ok d
  | .cons x t, d =>
    match gcsScan x d with
    | .ok d2 => gcsList t d2
    | .error e => .error e

end

/-- Embedding of `get_card_synergies` applied to an already-fetched
payload (the request/parse `try` block is the fetch abstraction; the scan
itself runs outside that block, so its exceptions propagate). -/
def get_card_synergies (data : JValue) : Except Unit (List (String × ℚ)) :=
  gcsScan data []

/-- The synergy-accumulation loop of `analyze_and_complete_deck`
(lines 465–478): iterate the seed cards, adding every reported per-pair
score into the running defaultdict. -/
def accumGo (fetch : String → JValue) : List String → List (String × ℚ) →
    Except Unit (List (String × ℚ))
  | [], acc => .ok acc
  | s :: rest, acc =>
    match get_card_synergies (fetch s) with
    | .ok syn => accumGo fetch rest (syn.foldl (fun a p => dictAdd a p.1 p.2) acc)
    | .error e => .error e

/-- Embedding of the accumulation over a deck's current cards.  Note the
source iterates `current_cards[:20]` — only the first 20 seed cards. -/
def accumulate_synergies (fetch : String → JValue) (current_cards : List String) :
    Except Unit (List (String × ℚ)) :=
  accumGo fetch (current_cards.take 20) []

/-- Well-formedness of a synergies dict: distinct keys (Python dicts) and
every stored score strictly above the per-pair threshold. -/
def dictInv (d : List (String × ℚ)) : Prop :=
  (d.map Prod.fst).Nodup ∧ ∀ p ∈ d, MIN_SYNERGY_SCORE < p.2

theorem mem_dictSet (d : List (String × ℚ)) (k : String) (q : ℚ) (p : String × ℚ)
    (h : p ∈ dictSet d k q) : p ∈ d ∨ p = (k, q) := by
  induction d with
  | nil =>
    simp [dictSet] at h
    exact Or.inr h
  | cons p0 t ih =>
    obtain ⟨k', v⟩ := p0
    rw [dictSet] at h
    by_cases hk : k' = k
    · rw [if_pos hk] at h
      rcases List.mem_cons.mp h with h1 | h1
      · exact Or.inr (by rw [h1, hk])
      · exact Or.inl (List.mem_cons_of_mem _ h1)
    · rw [if_neg hk] at h
      rcases List.mem_cons.mp h with h1 | h1
      · exact Or.inl (by rw [h1]; exact List.mem_cons_self _ _)
      · rcases ih h1 with h2 | h2
        · exact Or.inl (List.mem_cons_of_mem _ h2)
        · exact Or.inr h2

theorem keys_dictSet (d : List (String × ℚ)) (k : String) (q : ℚ) (x : String)
    (h : x ∈ (dictSet d k q).map Prod.fst) : x ∈ d.map Prod.fst ∨ x = k := by
  simp only [List.mem_map] at h
  obtain ⟨p, hp, hx⟩ := h
  rcases mem_dictSet d k q p hp with h1 | h1
  · exact Or.inl (List.mem_map.mpr ⟨p, h1, hx⟩)
  · exact Or.inr (by rw [← hx, h1])

theorem nodup_dictSet (d : List (String × ℚ)) (k : String) (q : ℚ)
    (h : (d.map Prod.fst).Nodup) : ((dictSet d k q).map Prod.fst).Nodup := by
  induction d with
  | nil => simp [dictSet]
  | cons p0 t ih =>
    obtain ⟨k', v⟩ := p0
    simp only [List.map_cons, List.nodup_cons] at h
    rw [dictSet]
    by_cases hk : k' = k
    · rw [if_pos hk]
      simp only [List.map_cons, List.nodup_cons]
      exact h
    · rw [if_neg hk]
      simp only [List.map_cons, List.nodup_cons]
      constructor
      · intro hmem
        rcases keys_dictSet t k q k' hmem with h1 | h1
        · exact h.1 h1
        · exact hk h1
      · exact ih h.2

theorem dictSet_inv (d : List (String × ℚ)) (k : String) (q : ℚ)
    (hq : MIN_SYNERGY_SCORE < q) (h : dictInv d) : dictInv (dictSet d k q) := by
  refine ⟨nodup_dictSet d k q h.1, ?_⟩
  intro p hp
  rcases mem_dictSet d k q p hp with h1 | h1
  · exact h.2 p h1
  · rw [h1]
    exact hq

theorem dlookup_cons_eq (k : String) (q : ℚ) (t : List (String × ℚ)) :
    dlookup ((k, q) :: t) k = q := by
  simp [dlookup, alookup]

theorem dlookup_cons_ne (k' k : String) (q : ℚ) (t : List (String × ℚ)) (h : k' ≠ k) :
    dlookup ((k', q) :: t) k = dlookup t k := by
  simp [dlookup, alookup, h]

theorem dlookup_not_mem (d : List (String × ℚ)) (k : String) (h : k ∉ d.map Prod.fst) :
    dlookup d k = 0 := by
  induction d with
  | nil => rfl
  | cons p t ih =>
    obtain ⟨k', v⟩ := p
    simp only [List.map_cons, List.mem_cons] at h
    push_neg at h
    rw [dlookup_cons_ne k' k v t (fun he => h.1 he.symm)]
    exact ih h.2

theorem dictAdd_eq (d : List (String × ℚ)) (k : String) (q : ℚ) :
    dlookup (dictAdd d k q) k = dlookup d k + q := by
  induction d with
  | nil => simp [dictAdd, dlookup, alookup]
  | cons p t ih =>
    obtain ⟨k', v⟩ := p
    rw [dictAdd]
    by_cases hk : k' = k
    · rw [if_pos hk, hk, dlookup_cons_eq, dlookup_cons_eq]
    · rw [if_neg hk, dlookup_cons_ne _ _ _ _ hk, dlookup_cons_ne _ _ _ _ hk, ih]

theorem dictAdd_ne (d : List (String × ℚ)) (k' k : String) (q : ℚ) (h : k' ≠ k) :
    dlookup (dictAdd d k' q) k = dlookup d k := by
  induction d with
  | nil => simp [dictAdd, dlookup, alookup, h]
  | cons p t ih =>
    obtain ⟨k0, v⟩ := p
    rw [dictAdd]
    by_cases hk : k0 = k'
    · rw [if_pos hk, hk, dlookup_cons_ne _ _ _ _ h, dlookup_cons_ne _ _ _ _ h]
    · rw [if_neg hk]
      by_cases hk2 : k0 = k
      · rw [hk2, dlookup_cons_eq, dlookup_cons_eq]
      · rw [dlookup_cons_ne _ _ _ _ hk2, dlookup_cons_ne _ _ _ _ hk2, ih]

theorem foldAdd_dlookup : ∀ (syn acc : List (String × ℚ)) (k : String),
    (syn.map Prod.fst).Nodup →
    dlookup (syn.foldl (fun a p => dictAdd a p.1 p.2) acc) k = dlookup acc k + dlookup syn k
  | [], acc, k, _ => by simp [dlookup, alookup]
  | (k1, q1) :: rest, acc, k, h => by
    simp only [List.map_cons, List.nodup_cons] at h
    rw [List.foldl_cons, foldAdd_dlookup rest (dictAdd acc k1 q1) k h.2]
    by_cases hk : k1 = k
    · rw [hk] at h ⊢
      rw [dictAdd_eq, dlookup_cons_eq, dlookup_not_mem rest k h.1]
      ring
    · rw [dictAdd_ne _ _ _ _ hk, dlookup_cons_ne _ _ _ _ hk]

theorem cvStep_inv (card : JValue) (d d2 : List (String × ℚ))
    (h : cvStep card d = .ok d2) (hd : dictInv d) : dictInv d2 := by
  cases card with
  | obj fs =>
    rw [cvStep] at h
    repeat' split at h
    all_goals try exact Except.noConfusion h
    all_goals try exact (Except.ok.inj h) ▸ hd
    all_goals exact (Except.ok.inj h) ▸ dictSet_inv _ _ _ (by assumption) hd
  | null => exact Except.noConfusion h
  | bool b => exact Except.noConfusion h
  | num q => exact Except.noConfusion h
  | str s => exact Except.noConfusion h
  | arr xs => exact Except.noConfusion h

theorem foldCV_inv : ∀ (items : List JValue) (d d2 : List (String × ℚ)),
    foldCV items d = .ok d2 → dictInv d → dictInv d2
  | [], d, d2, h, hd => (Except.ok.inj h) ▸ hd
  | cv :: rest, d, d2, h, hd => by
    rw [foldCV] at h
    cases hcv : cvStep cv d with
    | ok dm =>
      rw [hcv] at h
      exact foldCV_inv rest dm d2 h (cvStep_inv cv d dm hcv hd)
    | error e =>
      rw [hcv] at h
      exact Except.noConfusion h

theorem gcsNode_inv (fs : JFields) (d d2 : List (String × ℚ))
    (h : gcsNode fs d = .ok d2) (hd : dictInv d) : dictInv d2 := by
  rw [gcsNode] at h
  repeat' split at h
  all_goals try exact Except.noConfusion h
  all_goals try exact (Except.ok.inj h) ▸ hd
  all_goals exact foldCV_inv _ d d2 h hd

mutual

theorem gcsScan_inv : ∀ (v : JValue) (d d2 : List (String × ℚ)),
    gcsScan v d = .ok d2 → dictInv d → dictInv d2
  | .obj fs, d, d2, h, hd => by
    rw [gcsScan] at h
    cases hn : gcsNode fs d with
    | ok dm =>
      rw [hn] at h
      exact gcsFields_inv fs dm d2 h (gcsNode_inv fs d dm hn hd)
    | error e =>
      rw [hn] at h
      exact Except.noConfusion h
  | .arr xs, d, d2, h, hd => gcsList_inv xs d d2 h hd
  | .null, d, d2, h, hd => (Except.ok.inj h) ▸ hd
  | .bool b, d, d2, h, hd => (Except.ok.inj h) ▸ hd
  | .num q, d, d2, h, hd => (Except.ok.inj h) ▸ hd
  | .str s, d, d2, h, hd => (Except.ok.inj h) ▸ hd

theorem gcsFields_inv : ∀ (fs : JFields) (d d2 : List (String × ℚ)),
    gcsFields fs d = .ok d2 → dictInv d → dictInv d2
  | .nil, d, d2, h, hd => (Except.ok.inj h) ▸ hd
  | .cons k v t, d, d2, h, hd => by
    rw [gcsFields] at h
    cases hs : gcsScan v d with
    | ok dm =>
      rw [hs] at h
      exact gcsFields_inv t dm d2 h (gcsScan_inv v d dm hs hd)
    | error e =>
      rw [hs] at h
      exact Except.noConfusion h

theorem gcsList_inv : ∀ (xs : JList) (d d2 : List (String × ℚ)),
    gcsList xs d = .ok d2 → dictInv d → dictInv d2
  | .nil, d, d2, h, hd => (Except.ok.inj h) ▸ hd
  | .cons x t, d, d2, h, hd => by
    rw [gcsList] at h
    cases hs : gcsScan x d with
    | ok dm =>
      rw [hs] at h
      exact gcsList_inv t dm d2 h (gcsScan_inv x d dm hs hd)
    | error e =>
      rw [hs] at h
      exact Except.noConfusion h

end

theorem get_card_synergies_inv (data : JValue) (d : List (String × ℚ))
    (h : get_card_synergies data = .ok d) : dictInv d :=
  gcsScan_inv data [] d h ⟨by simp, by simp⟩

theorem accumGo_sum (fetch : String → JValue) :
    ∀ (seeds : List String) (acc res : List (String × ℚ)),
      accumGo fetch seeds acc = .ok res → ∀ k,
      dlookup res k = dlookup acc k +
        (seeds.map (fun s =>
          match get_card_synergies (fetch s) with
          | .ok syn => dlookup syn k
          | .error _ => 0)).sum
  | [], acc, res, h, k => by
    rw [← Except.ok.inj h]
    simp
  | s :: rest, acc, res, h, k => by
    rw [accumGo] at h
    cases hs : get_card_synergies (fetch s) with
    | ok syn =>
      rw [hs] at h
      have hnd := (get_card_synergies_inv (fetch s) syn hs).1
      rw [accumGo_sum fetch rest _ res h k, foldAdd_dlookup syn acc k hnd,
        List.map_cons, List.sum_cons, hs]
      ring
    | error e =>
      rw [hs] at h
      exact Except.noConfusion h

/-- C6 counterexample: with 21 seed cards each reporting synergy 1 with
candidate "c", the accumulated total is 20 — the loop reads only
`current_cards[:20]` — while the sum over all seed cards in the deck is
21. -/
theorem c6_counterexample :
    accumulate_synergies
        (fun _ => jobj [("cardviews",
           jarr [jobj [("name", JValue.str "c"), ("synergy", JValue.num 1)]])])
        (List.replicate 21 "x")
      = .ok [("c", 20)] ∧
    ((List.replicate 21 "x").map (fun s =>
        match get_card_synergies ((fun _ => jobj [("cardviews",
            jarr [jobj [("name", JValue.str "c"), ("synergy", JValue.num 1)]])]) s) with
        | .ok syn => dlookup syn "c"
        | .error _ => 0)).sum = 21 ∧
    (20 : ℚ) ≠ 21 := by
  refine ⟨by with_unfolding_all decide, by with_unfolding_all decide, by norm_num⟩

/-- C6 (amended): for every partially built deck, the accumulated synergy
total of a candidate equals the sum, over the FIRST 20 seed cards of the
deck (`current_cards[:20]`), of the per-pair synergy scores those seeds
report with the candidate; every reported per-pair score is strictly
above the 0.1 minimum threshold. -/
theorem c6_theorem :
    (∀ (fetch : String → JValue) (current_cards : List String) (res : List (String × ℚ)),
       accumulate_synergies fetch current_cards = .ok res → ∀ candidate,
       dlookup res candidate =
         ((current_cards.take 20).map (fun s =>
            match get_card_synergies (fetch s) with
            | .ok syn => dlookup syn candidate
            | .error _ => 0)).sum) ∧
    (∀ (data : JValue) (d : List (String × ℚ)), get_card_synergies data = .ok d →
       ∀ p ∈ d, MIN_SYNERGY_SCORE < p.2) := by
  constructor
  · intro fetch current_cards res h candidate
    have h2 := accumGo_sum fetch (current_cards.take 20) [] res h candidate
    simpa [dlookup, alookup] using h2
  · intro data d h p hp
    exact (get_card_synergies_inv data d h).2 p hp

/-- Witness for C6: the sum equation applied at one seed card whose
payload reports synergy 1 with candidate "c". -/
theorem c6_theorem_witness :
    dlookup [("c", (1 : ℚ))] "c" =
      (((["x"] : List String).take 20).map (fun s =>
         match get_card_synergies ((fun _ => jobj [("cardviews",
             jarr [jobj [("name", JValue.str "c"), ("synergy", JValue.num 1)]])]) s) with
         | .ok syn => dlookup syn "c"
         | .error _ => 0)).sum ∧
    MIN_SYNERGY_SCORE < (1 : ℚ) := by
  constructor
  · exact c6_theorem.1
      (fun _ => jobj [("cardviews",
         jarr [jobj [("name", JValue.str "c"), ("synergy", JValue.num 1)]])])
      ["x"] [("c", 1)] (by with_unfolding_all decide) "c"
  · exact c6_theorem.2
      (jobj [("cardviews", jarr [jobj [("name", JValue.str "c"), ("synergy", JValue.num 1)]])])
      [("c", 1)] (by with_unfolding_all decide) ("c", 1) (by simp)

/-! ## C1: scoring and suggestion compilation
(`complete_deck.analyze_and_complete_deck`, lines 480–619). -/

/-- `MIN_SCORE_THRESHOLD = 5` from the configuration block. -/
def MIN_SCORE_THRESHOLD : ℚ := 5

/-- `MAX_SUGGESTIONS = 50` from the configuration block. -/
def MAX_SUGGESTIONS : Nat := 50

/-- Per-card data mined by `get_average_and_budget_deck` and consulted by
the scoring loop.  `price` feeds only the key-cards-to-buy branch (cards
absent from inventory, which never become suggestions); `synergy` and
`scryfall` keys of the source dict are dropped — no claim reads them. -/
structure EdhrecInfo where
  name : String
  inclusion : ℚ
  num_decks : ℚ
  is_budget : Bool
  price : ℚ
deriving DecidableEq

/-- One entry appended to `suggestions`.  `key` retains the loop variable
`card_lower` (the inventory/deck key of the record); the `collections`
and `scryfall` presentation columns are dropped — no claim reads them. -/
structure Suggestion where
  key : String
  name : String
  score : ℚ
  inclusion : ℚ
  synergy : ℚ
  is_budget : Bool
  source : String
deriving DecidableEq

/-- Tag of an entry of `cards_to_check`: "edhrec" entries carry the
EDHREC info dict, "synergy" entries the accumulated synergy score. -/
inductive CandSource where
  | edhrec (info : EdhrecInfo)
  | synergy (score : ℚ)
deriving DecidableEq

/-- `inclusion_pct` exactly as computed (twice) in the source:
`inclusion / num_decks if num_decks > 0 else 0`. -/
def inclusion_pct (info : EdhrecInfo) : ℚ :=
  if info.num_decks > 0 then info.inclusion / info.num_decks else 0

/-- Construction of `cards_to_check` (lines 487–527): EDHREC candidates
must not be in the deck and must be owned (unowned ones go to the
key-cards report, not modelled — they never become suggestions);
synergy-only candidates must additionally not appear in the EDHREC dict
and must pre-pass `min(score*10, 50) > MIN_SCORE_THRESHOLD` (strict). -/
def cards_to_check (edhrec_cards : List (String × EdhrecInfo)) (all_synergies : List (String × ℚ))
    (inventory : List (String × InvEntry)) (current : List String) :
    List (String × CandSource) :=
  (edhrec_cards.filterMap (fun p =>
    if current.contains p.1 then none
    else if keysContain inventory p.1 then some (p.1, CandSource.edhrec p.2)
    else none))
  ++ (all_synergies.filterMap (fun p =>
    if current.contains p.1 then none
    else if keysContain edhrec_cards p.1 then none
    else if keysContain inventory p.1 then
      (if min (p.2 * 10) 50 > MIN_SCORE_THRESHOLD then some (p.1, CandSource.synergy p.2)
       else none)
    else none))

/-- `inventory[card_lower]["name"]`; the candidate is in the inventory by
construction, so the default is unreachable. -/
def inventory_name (inventory : List (String × InvEntry)) (k : String) : String :=
  ((alookup inventory k).map InvEntry.name).getD ""

/-- Display name used for the color check (line 539). -/
def candName (inventory : List (String × InvEntry)) (k : String) : CandSource → String
  | .edhrec info => info.name
  | .synergy _ => inventory_name inventory k

/-- Body of the scoring loop (lines 535–605) for one candidate.
`colorCheck` is `CHECK_COLOR_IDENTITY and commander_colors` (a run-wide
boolean) and `legal` abstracts the remote `card_is_legal_in_colors`
verdict per display name. -/
def processCandidate (all_synergies : List (String × ℚ)) (inventory : List (String × InvEntry))
    (colorCheck : Bool) (legal : String → Bool) (k : String) (src : CandSource) :
    Option Suggestion :=
  if colorCheck && !legal (candName inventory k src) then none
  else
    match src with
    | .edhrec info =>
      if inclusion_pct info * 100 + min (dlookup all_synergies k * 10) 50
          + (if info.is_budget then 10 else 0) < MIN_SCORE_THRESHOLD then none
      else some ⟨k, info.name,
        inclusion_pct info * 100 + min (dlookup all_synergies k * 10) 50
          + (if info.is_budget then 10 else 0),
        inclusion_pct info, dlookup all_synergies k, info.is_budget, "EDHREC"⟩
    | .synergy sc =>
      if min (sc * 10) 50 < MIN_SCORE_THRESHOLD then none
      else some ⟨k, inventory_name inventory k, min (sc * 10) 50, 0, sc, false, "Sinergia"⟩

/-- The `suggestions` list before sorting. -/
def compile_suggestions (edhrec_cards : List (String × EdhrecInfo))
    (all_synergies : List (String × ℚ)) (inventory : List (String × InvEntry))
    (current : List String) (colorCheck : Bool) (legal : String → Bool) : List Suggestion :=
  (cards_to_check edhrec_cards all_synergies inventory current).filterMap
    (fun p => processCandidate all_synergies inventory colorCheck legal p.1 p.2)

/-- Stable insertion step for descending score (model of Python's stable
`sort(key=..., reverse=True)`; ties keep discovery order). -/
def insertByScore (s : Suggestion) : List Suggestion → List Suggestion
  | [] => [s]
  | t :: rest => if t.score > s.score then t :: insertByScore s rest else s :: t :: rest

/-- Stable sort by descending score. -/
def sortByScoreDesc : List Suggestion → List Suggestion
  | [] => []
  | s :: rest => insertByScore s (sortByScoreDesc rest)

/-- The returned suggestion list: sorted by descending score and cut to
`MAX_SUGGESTIONS` (line 610 and 617). -/
def analyze_suggestions (edhrec_cards : List (String × EdhrecInfo))
    (all_synergies : List (String × ℚ)) (inventory : List (String × InvEntry))
    (current : List String) (colorCheck : Bool) (legal : String → Bool) : List Suggestion :=
  (sortByScoreDesc
    (compile_suggestions edhrec_cards all_synergies inventory current colorCheck legal)).take
    MAX_SUGGESTIONS

theorem mem_insertByScore (s : Suggestion) : ∀ (l : List Suggestion) (a : Suggestion),
    a ∈ insertByScore s l → a = s ∨ a ∈ l
  | [], a, h => by
    simp [insertByScore] at h
    exact Or.inl h
  | t :: rest, a, h => by
    rw [insertByScore] at h
    by_cases ht : t.score > s.score
    · rw [if_pos ht] at h
      rcases List.mem_cons.mp h with h1 | h1
      · exact Or.inr (by rw [h1]; exact List.mem_cons_self _ _)
      · rcases mem_insertByScore s rest a h1 with h2 | h2
        · exact Or.inl h2
        · exact Or.inr (List.mem_cons_of_mem _ h2)
    · rw [if_neg ht] at h
      rcases List.mem_cons.mp h with h1 | h1
      · exact Or.inl h1
      · exact Or.inr h1

theorem mem_sortByScoreDesc : ∀ (l : List Suggestion) (a : Suggestion),
    a ∈ sortByScoreDesc l → a ∈ l
  | [], a, h => by simp [sortByScoreDesc] at h
  | s :: rest, a, h => by
    rw [sortByScoreDesc] at h
    rcases mem_insertByScore s (sortByScoreDesc rest) a h with h1 | h1
    · exact h1 ▸ List.mem_cons_self _ _
    · exact List.mem_cons_of_mem _ (mem_sortByScoreDesc rest a h1)

theorem cards_to_check_mem (edh : List (String × EdhrecInfo)) (syn : List (String × ℚ))
    (inv : List (String × InvEntry)) (cur : List String) (k : String) (src : CandSource)
    (h : (k, src) ∈ cards_to_check edh syn inv cur) :
    cur.contains k = false ∧ keysContain inv k = true ∧
    ((∃ info, (k, info) ∈ edh ∧ src = .edhrec info) ∨
     (∃ sc, (k, sc) ∈ syn ∧ src = .synergy sc)) := by
  rw [cards_to_check, List.mem_append] at h
  rcases h with h | h
  · rw [List.mem_filterMap] at h
    obtain ⟨p, hp, hf⟩ := h
    by_cases h1 : cur.contains p.1
    · rw [if_pos h1] at hf
      cases hf
    · rw [if_neg h1] at hf
      by_cases h2 : keysContain inv p.1
      · rw [if_pos h2] at hf
        rw [Option.some_inj, Prod.mk.injEq] at hf
        obtain ⟨hk, hsrc⟩ := hf
        have h1f : cur.contains p.1 = false := by simpa using h1
        exact ⟨hk ▸ h1f, hk ▸ h2, Or.inl ⟨p.2, by rw [← hk]; exact hp, hsrc.symm⟩⟩
      · rw [if_neg h2] at hf
        cases hf
  · rw [List.mem_filterMap] at h
    obtain ⟨p, hp, hf⟩ := h
    by_cases h1 : cur.contains p.1
    · rw [if_pos h1] at hf
      cases hf
    · rw [if_neg h1] at hf
      by_cases h2 : keysContain edh p.1
      · rw [if_pos h2] at hf
        cases hf
      · rw [if_neg h2] at hf
        by_cases h3 : keysContain inv p.1
        · rw [if_pos h3] at hf
          by_cases h4 : min (p.2 * 10) 50 > MIN_SCORE_THRESHOLD
          · rw [if_pos h4] at hf
            rw [Option.some_inj, Prod.mk.injEq] at hf
            obtain ⟨hk, hsrc⟩ := hf
            have h1f : cur.contains p.1 = false := by simpa using h1
            exact ⟨hk ▸ h1f, hk ▸ h3, Or.inr ⟨p.2, by rw [← hk]; exact hp, hsrc.symm⟩⟩
          · rw [if_neg h4] at hf
            cases hf
        · rw [if_neg h3] at hf
          cases hf

theorem processCandidate_spec (all_synergies : List (String × ℚ))
    (inventory : List (String × InvEntry)) (colorCheck : Bool) (legal : String → Bool)
    (k : String) (src : CandSource) (s : Suggestion)
    (h : processCandidate all_synergies inventory colorCheck legal k src = some s) :
    s.key = k ∧ (¬ s.score < MIN_SCORE_THRESHOLD) ∧
    (∀ info, src = .edhrec info →
        s.source = "EDHREC" ∧ s.inclusion = inclusion_pct info ∧
        s.synergy = dlookup all_synergies k ∧ s.is_budget = info.is_budget ∧
        s.score = s.inclusion * 100 + min (s.synergy * 10) 50
          + (if s.is_budget then 10 else 0)) ∧
    (∀ sc, src = .synergy sc →
        s.source = "Sinergia" ∧ s.inclusion = 0 ∧ s.synergy = sc ∧ s.is_budget = false ∧
        s.score = min (s.synergy * 10) 50) := by
  unfold processCandidate at h
  split at h
  · cases h
  · split at h
    · rename_i info
      split at h
      · rename_i hbud
        split at h
        · cases h
        · rename_i hs
          obtain rfl := Option.some.inj h
          refine ⟨rfl, hs, ?_, ?_⟩
          · intro info2 hi
            obtain rfl := CandSource.edhrec.inj hi
            refine ⟨rfl, rfl, rfl, rfl, ?_⟩
            rw [if_pos hbud]
          · intro sc hi
            exact CandSource.noConfusion hi
      · rename_i hbud
        split at h
        · cases h
        · rename_i hs
          obtain rfl := Option.some.inj h
          refine ⟨rfl, hs, ?_, ?_⟩
          · intro info2 hi
            obtain rfl := CandSource.edhrec.inj hi
            refine ⟨rfl, rfl, rfl, rfl, ?_⟩
            rw [if_neg hbud]
          · intro sc hi
            exact CandSource.noConfusion hi
    · rename_i sc
      split at h
      · cases h
      · rename_i hs
        obtain rfl := Option.some.inj h
        refine ⟨rfl, hs, ?_, ?_⟩
        · intro info hi
          exact CandSource.noConfusion hi
        · intro sc2 hi
          obtain rfl := CandSource.synergy.inj hi
          exact ⟨rfl, rfl, rfl, rfl, rfl⟩

/-- C1 (confirmed): every suggestion the analyzer emits is for a card
present in inventory and not already in the deck; an EDHREC-sourced
suggestion's combined score equals
inclusionFraction * 100 + min(synergyTotal * 10, 50) + (10 if budget),
where inclusionFraction = inclusionCount / deckCount, and 0 when
deckCount is 0 (or not positive); a synergy-only suggestion's score
equals min(synergyTotal * 10, 50); and no emitted suggestion's score is
below MIN_SCORE_THRESHOLD = 5 (candidates under the threshold are
excluded). -/
theorem c1_theorem :
    ∀ (edhrec_cards : List (String × EdhrecInfo)) (all_synergies : List (String × ℚ))
      (inventory : List (String × InvEntry)) (current : List String)
      (colorCheck : Bool) (legal : String → Bool) (s : Suggestion),
      s ∈ analyze_suggestions edhrec_cards all_synergies inventory current colorCheck legal →
      (¬ s.score < MIN_SCORE_THRESHOLD) ∧
      keysContain inventory s.key = true ∧
      current.contains s.key = false ∧
      (s.source = "EDHREC" ∨ s.source = "Sinergia") ∧
      (s.source = "EDHREC" →
        s.score = s.inclusion * 100 + min (s.synergy * 10) 50
          + (if s.is_budget then 10 else 0) ∧
        s.synergy = dlookup all_synergies s.key ∧
        ∃ info, (s.key, info) ∈ edhrec_cards ∧
          s.inclusion = inclusion_pct info ∧
          (info.num_decks = 0 → s.inclusion = 0) ∧
          (0 < info.num_decks → s.inclusion = info.inclusion / info.num_decks)) ∧
      (s.source = "Sinergia" →
        s.score = min (s.synergy * 10) 50 ∧ s.inclusion = 0 ∧ s.is_budget = false) := by
  intro edh syn inv cur colorCheck legal s hmem
  rw [analyze_suggestions] at hmem
  have hmem2 := mem_sortByScoreDesc _ s (List.mem_of_mem_take hmem)
  rw [compile_suggestions, List.mem_filterMap] at hmem2
  obtain ⟨p, hp, hf⟩ := hmem2
  have hspec := processCandidate_spec syn inv colorCheck legal p.1 p.2 s hf
  have hctc := cards_to_check_mem edh syn inv cur p.1 p.2 (by
    have : (p.1, p.2) = p := rfl
    rw [this]
    exact hp)
  obtain ⟨hkey, hscore, hedh, hsyn2⟩ := hspec
  refine ⟨hscore, hkey.symm ▸ hctc.2.1, hkey.symm ▸ hctc.1, ?_, ?_, ?_⟩
  · rcases hctc.2.2 with ⟨info, _, hsrc⟩ | ⟨sc, _, hsrc⟩
    · exact Or.inl (hedh info hsrc).1
    · exact Or.inr (hsyn2 sc hsrc).1
  · intro hsrcE
    rcases hctc.2.2 with ⟨info, hmemE, hsrc⟩ | ⟨sc, _, hsrc⟩
    · obtain ⟨hso, hinc, hsynv, hbud, hsc⟩ := hedh info hsrc
      refine ⟨by rw [hsc, hbud], hkey.symm ▸ hsynv, info, hkey.symm ▸ hmemE, hinc, ?_, ?_⟩
      · intro h0
        rw [hinc, inclusion_pct, if_neg (by rw [h0]; exact lt_irrefl 0)]
      · intro h0
        rw [hinc, inclusion_pct, if_pos h0]
    · exact absurd (hsrcE.symm.trans (hsyn2 sc hsrc).1) (by decide)
  · intro hsrcS
    rcases hctc.2.2 with ⟨info, _, hsrc⟩ | ⟨sc, _, hsrc⟩
    · exact absurd (hsrcS.symm.trans (hedh info hsrc).1) (by decide)
    · obtain ⟨hso, hinc, hsynv, hbud, hsc⟩ := hsyn2 sc hsrc
      exact ⟨hsc, hinc, hbud⟩

/-- Witness for C1: the theorem applied to a one-candidate run — an owned
EDHREC card with inclusion 30 of 100 decks and the budget flag set scores
3/10 * 100 + 0 + 10 = 40 and passes the threshold. -/
theorem c1_theorem_witness :
    ¬ (40 : ℚ) < MIN_SCORE_THRESHOLD ∧
    keysContain [("sol ring", InvEntry.mk "Sol Ring" 1 ["SetA"])] "sol ring" = true := by
  have h := c1_theorem [("sol ring", ⟨"Sol Ring", 30, 100, true, 1⟩)] []
      [("sol ring", ⟨"Sol Ring", 1, ["SetA"]⟩)] [] false (fun _ => true)
      ⟨"sol ring", "Sol Ring", 40, 3/10, 0, true, "EDHREC"⟩ (by with_unfolding_all decide)
  exact ⟨h.1, h.2.1⟩

/-- One row of the `flat` list built by `export_with_formatting`
(find_best_commanders.py). -/
structure FlatRow where
  commander : String
  card : String
  percent : Option ℚ
  scryfall : Option String
  source : String
  collections : String
deriving DecidableEq

/-- Phase 1: one flat record per EDHREC card of a commander
(source "edhrec", percent copied from the card). -/
def edhrecRow (invSrc : String → String) (cmd : String)
    (c : String × ℚ × Option String) : FlatRow :=
  ⟨cmd, c.1, some c.2.1, c.2.2, "edhrec", invSrc (pyLower c.1)⟩

def edhrecFlat (invSrc : String → String) :
    List (String × List (String × ℚ × Option String)) → List FlatRow
  | [] => []
  | p :: ps => p.2.map (edhrecRow invSrc p.1) ++ edhrecFlat invSrc ps

/-- The `next(...)` predicate: x["commander"]==commander and
x["card"].lower()==lower. -/
def rowMatches (cmd lower : String) (x : FlatRow) : Bool :=
  x.commander == cmd && pyLower x.card == lower

/-- `already["source"] = "both"`: mutate the first matching record. -/
def markFirstBoth : List FlatRow → String → String → List FlatRow
  | [], _, _ => []
  | x :: xs, cmd, lower =>
    if rowMatches cmd lower x then { x with source := "both" } :: xs
    else x :: markFirstBoth xs cmd lower

def hasAlready (flat : List FlatRow) (cmd lower : String) : Bool :=
  flat.any (rowMatches cmd lower)

/-- Phase 2 body for one average-deck card: skip cards not in inventory,
retag the first duplicate as "both", otherwise append an "average" row
with percent None. -/
def avgCardStep (invKeys : List String) (scryOf : String → Option String)
    (invSrc : String → String) (cmd : String) (flat : List FlatRow)
    (card : String) : List FlatRow :=
  if invKeys.contains (pyLower card) then
    if hasAlready flat cmd (pyLower card) then markFirstBoth flat cmd (pyLower card)
    else flat ++ [⟨cmd, card, none, scryOf card, "average", invSrc (pyLower card)⟩]
  else flat

/-- The full `flat` list: phase 1 rows, then the average-deck loop over
each commander's fetched card list. -/
def export_flat (dfRows : List (String × List (String × ℚ × Option String)))
    (avgRows : List (String × List String)) (invKeys : List String)
    (scryOf : String → Option String) (invSrc : String → String) :
    List FlatRow :=
  avgRows.foldl (fun flat p => p.2.foldl (avgCardStep invKeys scryOf invSrc p.1) flat)
    (edhrecFlat invSrc dfRows)

/-- get_sort_priority: tier 1 "both", tier 2 "edhrec" with percent > 0.20,
tier 3 "average" (constant secondary 0), tier 4 otherwise; secondary key
-percent, with a missing percent read as 0. -/
def sortPriority (r : FlatRow) : ℕ × ℚ :=
  if r.source = "both" then (1, -(r.percent.getD 0))
  else if r.source = "edhrec" ∧ 1/5 < r.percent.getD 0 then (2, -(r.percent.getD 0))
  else if r.source = "average" then (3, 0)
  else (4, -(r.percent.getD 0))

/-- df2.groupby("commander").size(): rows of this commander. -/
def commanderTotal (rows : List FlatRow) (c : String) : ℕ :=
  (rows.filter (fun r => r.commander == c)).length

/-- Lexicographic ≤ on Python sort-key pairs. -/
def pairLE (p q : ℕ × ℚ) : Prop :=
  p.1 < q.1 ∨ (p.1 = q.1 ∧ p.2 ≤ q.2)

/-- sort_values(by=["commander_total","commander","sort_key"],
ascending=[False,True,True]). -/
def rowLE (t : String → ℕ) (a b : FlatRow) : Prop :=
  t b.commander < t a.commander ∨
  (t a.commander = t b.commander ∧
    (a.commander < b.commander ∨
      (a.commander = b.commander ∧ pairLE (sortPriority a) (sortPriority b))))

instance pairLEDec : ∀ p q, Decidable (pairLE p q) := fun p q => by
  unfold pairLE
  infer_instance

instance rowLEDec (t : String → ℕ) : DecidableRel (rowLE t) := fun a b => by
  unfold rowLE
  infer_instance

/-- The sorted df2 of export_with_formatting. -/
def export_sorted (dfRows : List (String × List (String × ℚ × Option String)))
    (avgRows : List (String × List String)) (invKeys : List String)
    (scryOf : String → Option String) (invSrc : String → String) :
    List FlatRow :=
  List.insertionSort
    (rowLE (commanderTotal (export_flat dfRows avgRows invKeys scryOf invSrc)))
    (export_flat dfRows avgRows invKeys scryOf invSrc)

lemma pairLE_total (p q : ℕ × ℚ) : pairLE p q ∨ pairLE q p := by
  rcases lt_trichotomy p.1 q.1 with h | h | h
  · exact Or.inl (Or.inl h)
  · rcases le_total p.2 q.2 with h2 | h2
    · exact Or.inl (Or.inr ⟨h, h2⟩)
    · exact Or.inr (Or.inr ⟨h.symm, h2⟩)
  · exact Or.inr (Or.inl h)

lemma pairLE_trans {p q r : ℕ × ℚ} (h1 : pairLE p q) (h2 : pairLE q r) :
    pairLE p r := by
  rcases h1 with h1 | ⟨e1, h1⟩ <;> rcases h2 with h2 | ⟨e2, h2⟩
  · exact Or.inl (lt_trans h1 h2)
  · exact Or.inl (e2 ▸ h1)
  · exact Or.inl (e1 ▸ h2)
  · exact Or.inr ⟨e1.trans e2, le_trans h1 h2⟩

lemma rowLE_total (t : String → ℕ) (a b : FlatRow) :
    rowLE t a b ∨ rowLE t b a := by
  rcases lt_trichotomy (t a.commander) (t b.commander) with h | h | h
  · exact Or.inr (Or.inl h)
  · rcases lt_trichotomy a.commander b.commander with h2 | h2 | h2
    · exact Or.inl (Or.inr ⟨h, Or.inl h2⟩)
    · rcases pairLE_total (sortPriority a) (sortPriority b) with h3 | h3
      · exact Or.inl (Or.inr ⟨h, Or.inr ⟨h2, h3⟩⟩)
      · exact Or.inr (Or.inr ⟨h.symm, Or.inr ⟨h2.symm, h3⟩⟩)
    · exact Or.inr (Or.inr ⟨h.symm, Or.inl h2⟩)
  · exact Or.inl (Or.inl h)

lemma rowLE_trans (t : String → ℕ) (a b c : FlatRow)
    (h1 : rowLE t a b) (h2 : rowLE t b c) : rowLE t a c := by
  rcases h1 with h1 | ⟨e1, h1⟩
  · rcases h2 with h2 | ⟨e2, h2⟩
    · exact Or.inl (lt_trans h2 h1)
    · exact Or.inl (e2 ▸ h1)
  · rcases h2 with h2 | ⟨e2, h2⟩
    · exact Or.inl (e1 ▸ h2)
    · refine Or.inr ⟨e1.trans e2, ?_⟩
      rcases h1 with h1 | ⟨n1, h1⟩
      · rcases h2 with h2 | ⟨n2, h2⟩
        · exact Or.inl (lt_trans h1 h2)
        · exact Or.inl (n2 ▸ h1)
      · rcases h2 with h2 | ⟨n2, h2⟩
        · exact Or.inl (n1 ▸ h2)
        · exact Or.inr ⟨n1.trans n2, pairLE_trans h1 h2⟩

lemma rowLE_strict_total (t : String → ℕ) (a b : FlatRow)
    (h : t b.commander < t a.commander) : rowLE t a b ∧ ¬ rowLE t b a := by
  refine ⟨Or.inl h, ?_⟩
  intro hr
  rcases hr with hr | ⟨e, _⟩
  · exact absurd (lt_trans h hr) (lt_irrefl _)
  · exact absurd (e ▸ h) (lt_irrefl _)

lemma rowLE_strict_name (t : String → ℕ) (a b : FlatRow)
    (he : t a.commander = t b.commander) (h : a.commander < b.commander) :
    rowLE t a b ∧ ¬ rowLE t b a := by
  refine ⟨Or.inr ⟨he, Or.inl h⟩, ?_⟩
  intro hr
  rcases hr with hr | ⟨_, hr | ⟨hn, _⟩⟩
  · exact absurd (he ▸ hr) (lt_irrefl _)
  · exact absurd (lt_trans h hr) (lt_irrefl _)
  · exact absurd (hn ▸ h) (lt_irrefl _)

lemma rowLE_strict_tier (t : String → ℕ) (a b : FlatRow)
    (he : t a.commander = t b.commander) (hn : a.commander = b.commander)
    (h : (sortPriority a).1 < (sortPriority b).1) :
    rowLE t a b ∧ ¬ rowLE t b a := by
  refine ⟨Or.inr ⟨he, Or.inr ⟨hn, Or.inl h⟩⟩, ?_⟩
  intro hr
  rcases hr with hr | ⟨_, hr | ⟨_, hr | ⟨e2, _⟩⟩⟩
  · exact absurd (he ▸ hr) (lt_irrefl _)
  · exact absurd (hn ▸ hr) (lt_irrefl _)
  · exact absurd (lt_trans h hr) (lt_irrefl _)
  · exact absurd (e2 ▸ h) (lt_irrefl _)

lemma rowLE_strict_snd (t : String → ℕ) (a b : FlatRow)
    (he : t a.commander = t b.commander) (hn : a.commander = b.commander)
    (ht : (sortPriority a).1 = (sortPriority b).1)
    (h : (sortPriority a).2 < (sortPriority b).2) :
    rowLE t a b ∧ ¬ rowLE t b a := by
  refine ⟨Or.inr ⟨he, Or.inr ⟨hn, Or.inr ⟨ht, le_of_lt h⟩⟩⟩, ?_⟩
  intro hr
  rcases hr with hr | ⟨_, hr | ⟨_, hr | ⟨_, hr⟩⟩⟩
  · exact absurd (he ▸ hr) (lt_irrefl _)
  · exact absurd (hn ▸ hr) (lt_irrefl _)
  · exact absurd (ht ▸ hr) (lt_irrefl _)
  · exact absurd (lt_of_lt_of_le h hr) (lt_irrefl _)

lemma sortPriority_both (a : FlatRow) (h : a.source = "both") :
    sortPriority a = (1, -(a.percent.getD 0)) := by
  unfold sortPriority
  rw [if_pos h]

lemma sortPriority_edhrec (a : FlatRow) (h : a.source = "edhrec")
    (hp : 1/5 < a.percent.getD 0) :
    sortPriority a = (2, -(a.percent.getD 0)) := by
  unfold sortPriority
  rw [if_neg (fun hc => absurd (h.symm.trans hc) (by decide)), if_pos ⟨h, hp⟩]

lemma sortPriority_average (a : FlatRow) (h : a.source = "average") :
    sortPriority a = (3, 0) := by
  unfold sortPriority
  rw [if_neg (fun hc => absurd (h.symm.trans hc) (by decide)),
    if_neg (fun hc => absurd (h.symm.trans hc.1) (by decide)), if_pos h]

lemma sortPriority_else (a : FlatRow) (h1 : ¬ a.source = "both")
    (h2 : ¬ a.source = "average")
    (h3 : ¬ (a.source = "edhrec" ∧ 1/5 < a.percent.getD 0)) :
    sortPriority a = (4, -(a.percent.getD 0)) := by
  unfold sortPriority
  rw [if_neg h1, if_neg h3, if_neg h2]

lemma sortPriority_snd (a : FlatRow) (h : (sortPriority a).1 ≠ 3) :
    (sortPriority a).2 = -(a.percent.getD 0) := by
  by_cases h1 : a.source = "both"
  · rw [sortPriority_both a h1]
  · by_cases h2 : a.source = "edhrec" ∧ 1/5 < a.percent.getD 0
    · rw [sortPriority_edhrec a h2.1 h2.2]
    · by_cases h3 : a.source = "average"
      · rw [sortPriority_average a h3] at h
        exact absurd rfl h
      · rw [sortPriority_else a h1 h3 h2]

lemma mem_markFirstBoth {r : FlatRow} :
    ∀ {flat : List FlatRow} {cmd lower : String},
      r ∈ markFirstBoth flat cmd lower →
      r ∈ flat ∨ ∃ x ∈ flat, r = { x with source := "both" } := by
  intro flat
  induction flat with
  | nil => intro _ _ h; cases h
  | cons x xs ih =>
    intro cmd lower h
    rw [markFirstBoth] at h
    split at h
    · rcases List.mem_cons.mp h with h | h
      · exact Or.inr ⟨x, List.mem_cons_self x xs, h⟩
      · exact Or.inl (List.mem_cons_of_mem x h)
    · rcases List.mem_cons.mp h with h | h
      · exact Or.inl (h ▸ List.mem_cons_self x xs)
      · rcases ih h with h2 | ⟨y, hy, hr⟩
        · exact Or.inl (List.mem_cons_of_mem x h2)
        · exact Or.inr ⟨y, List.mem_cons_of_mem x hy, hr⟩

lemma foldl_preserve {α β : Type} (P : β → Prop) (step : List β → α → List β)
    (hstep : ∀ flat a, (∀ r ∈ flat, P r) → ∀ r ∈ step flat a, P r) :
    ∀ (l : List α) (flat : List β), (∀ r ∈ flat, P r) →
      ∀ r ∈ l.foldl step flat, P r := by
  intro l
  induction l with
  | nil => intro flat h r hr; exact h r hr
  | cons a l ih =>
    intro flat h r hr
    exact ih (step flat a) (hstep flat a h) r hr

lemma avgCardStep_avgNone (invKeys : List String) (scryOf : String → Option String)
    (invSrc : String → String) (cmd : String) (flat : List FlatRow) (card : String)
    (hP : ∀ r ∈ flat, r.source = "average" → r.percent = none) :
    ∀ r ∈ avgCardStep invKeys scryOf invSrc cmd flat card,
      r.source = "average" → r.percent = none := by
  intro r hr
  rw [avgCardStep] at hr
  split at hr
  · split at hr
    · rcases mem_markFirstBoth hr with h | ⟨x, _, rfl⟩
      · exact hP r h
      · intro hsrc
        have hne : ("both" : String) ≠ "average" := by decide
        exact absurd hsrc hne
    · rcases List.mem_append.mp hr with h | h
      · exact hP r h
      · intro _
        rcases List.mem_singleton.mp h with rfl
        rfl
  · exact hP r hr

lemma edhrecFlat_src (invSrc : String → String) :
    ∀ (l : List (String × List (String × ℚ × Option String))),
      ∀ r ∈ edhrecFlat invSrc l, r.source = "edhrec" := by
  intro l
  induction l with
  | nil => intro r hr; cases hr
  | cons p ps ih =>
    intro r hr
    rw [edhrecFlat] at hr
    rcases List.mem_append.mp hr with h | h
    · rcases List.mem_map.mp h with ⟨c, _, rfl⟩
      rfl
    · exact ih r h

lemma export_flat_avgNone (dfRows : List (String × List (String × ℚ × Option String)))
    (avgRows : List (String × List String)) (invKeys : List String)
    (scryOf : String → Option String) (invSrc : String → String) :
    ∀ r ∈ export_flat dfRows avgRows invKeys scryOf invSrc,
      r.source = "average" → r.percent = none := by
  rw [export_flat]
  refine foldl_preserve _ _ ?_ avgRows _ ?_
  · intro flat p h
    exact foldl_preserve _ _ (fun fl c hc => avgCardStep_avgNone invKeys scryOf invSrc p.1 fl c hc) p.2 flat h
  · intro r hr hsrc
    exact absurd ((edhrecFlat_src invSrc dfRows r hr).symm.trans hsrc) (by decide)

/-- C2: the merged flat list is sorted by descending per-commander row
count, then ascending commander name, then the get_sort_priority key:
tier 1 "both", tier 2 "edhrec" with percent above 0.20, tier 3 "average",
tier 4 otherwise, with descending percent (ascending -percent) inside a
tier whose secondary key is not the constant 0; every strict key
difference forces strict ordering, and for one commander a "both" row
always precedes an "average" row; "average" rows always carry percent
None. -/
theorem c2_theorem :
    (∀ (dfRows : List (String × List (String × ℚ × Option String)))
       (avgRows : List (String × List String)) (invKeys : List String)
       (scryOf : String → Option String) (invSrc : String → String),
      (export_sorted dfRows avgRows invKeys scryOf invSrc).Perm
          (export_flat dfRows avgRows invKeys scryOf invSrc) ∧
      List.Sorted (rowLE (commanderTotal (export_flat dfRows avgRows invKeys scryOf invSrc)))
          (export_sorted dfRows avgRows invKeys scryOf invSrc) ∧
      (∀ r ∈ export_flat dfRows avgRows invKeys scryOf invSrc,
        r.source = "average" → r.percent = none)) ∧
    (∀ (t : String → ℕ) (a b : FlatRow),
      (t b.commander < t a.commander → rowLE t a b ∧ ¬ rowLE t b a) ∧
      (t a.commander = t b.commander → a.commander < b.commander →
        rowLE t a b ∧ ¬ rowLE t b a) ∧
      (t a.commander = t b.commander → a.commander = b.commander →
        (sortPriority a).1 < (sortPriority b).1 → rowLE t a b ∧ ¬ rowLE t b a) ∧
      (t a.commander = t b.commander → a.commander = b.commander →
        (sortPriority a).1 = (sortPriority b).1 →
        (sortPriority a).2 < (sortPriority b).2 → rowLE t a b ∧ ¬ rowLE t b a) ∧
      (t a.commander = t b.commander → a.commander = b.commander →
        a.source = "both" → b.source = "average" →
        rowLE t a b ∧ ¬ rowLE t b a)) ∧
    (∀ a : FlatRow,
      (a.source = "both" → sortPriority a = (1, -(a.percent.getD 0))) ∧
      (a.source = "edhrec" → 1/5 < a.percent.getD 0 →
        sortPriority a = (2, -(a.percent.getD 0))) ∧
      (a.source = "average" → sortPriority a = (3, 0)) ∧
      (¬ a.source = "both" → ¬ a.source = "average" →
        ¬ (a.source = "edhrec" ∧ 1/5 < a.percent.getD 0) →
        sortPriority a = (4, -(a.percent.getD 0))) ∧
      ((sortPriority a).1 ≠ 3 → (sortPriority a).2 = -(a.percent.getD 0))) := by
  refine ⟨?_, ?_, ?_⟩
  · intro dfRows avgRows invKeys scryOf invSrc
    haveI : IsTotal FlatRow (rowLE (commanderTotal (export_flat dfRows avgRows invKeys scryOf invSrc))) :=
      ⟨rowLE_total _⟩
    haveI : IsTrans FlatRow (rowLE (commanderTotal (export_flat dfRows avgRows invKeys scryOf invSrc))) :=
      ⟨rowLE_trans _⟩
    exact ⟨List.perm_insertionSort _ _, List.sorted_insertionSort _ _,
      export_flat_avgNone dfRows avgRows invKeys scryOf invSrc⟩
  · intro t a b
    refine ⟨rowLE_strict_total t a b, rowLE_strict_name t a b,
      rowLE_strict_tier t a b, rowLE_strict_snd t a b, ?_⟩
    intro he hn ha hb
    refine rowLE_strict_tier t a b he hn ?_
    rw [sortPriority_both a ha, sortPriority_average b hb]
    exact (by decide : (1 : ℕ) < 3)
  · intro a
    exact ⟨sortPriority_both a, sortPriority_edhrec a, sortPriority_average a,
      sortPriority_else a, sortPriority_snd a⟩

/-- Witness for C2: for two rows of commander "Atraxa", one tagged "both"
with percent 0.01 and one tagged "average", the "both" row strictly
precedes the "average" row under the sort order. -/
theorem c2_theorem_witness :
    rowLE (fun _ => 2) ⟨"Atraxa", "Sol Ring", some (1/100), none, "both", ""⟩
        ⟨"Atraxa", "Swamp", none, none, "average", ""⟩ ∧
    ¬ rowLE (fun _ => 2) ⟨"Atraxa", "Swamp", none, none, "average", ""⟩
        ⟨"Atraxa", "Sol Ring", some (1/100), none, "both", ""⟩ :=
  (c2_theorem.2.1 (fun _ => 2)
    ⟨"Atraxa", "Sol Ring", some (1/100), none, "both", ""⟩
    ⟨"Atraxa", "Swamp", none, none, "average", ""⟩).2.2.2.2 rfl rfl rfl rfl

end PyEdhrec
